import Mathlib

/-!
# Growable byte buffer of `libs/buffer.c`

A shallow embedding of `libs/buffer.c` and of the parts of `libs/syscalls.c`
it calls (`sec_malloc`, `sec_realloc`, `print`, `println`), followed by
theorems about the buffer operations.

Modelling conventions.

* `size_t` is 64 bits wide, `int` 32 bits: values are `Nat`/`Int` and every
  arithmetic result that C reduces is reduced explicitly (`% 2 ^ 64`).
* A heap block is the list of its bytes; its length is the number of bytes
  that were allocated.  A pointer is `NULL` or a block.  The buffer is the
  only owner of its body, so `free` has nothing to record.
* An access outside a block ends the run in `Outcome.undefined`, with one
  exception: the `memcpy` of `sec_realloc`, which copies the old capacity
  into the new block, runs past the end of that block when the new capacity
  is the smaller one.  The bytes that fit are in the block, the others land
  in memory next to it, which the model does not represent, and the call
  returns, as it does in the running program.  A zero-length access at the
  start of any pointer, `NULL` included, does nothing.
* `malloc` is answered by the environment (`World.heap`): it either fails
  (`NULL`) or hands out a block of the requested length whose initial bytes
  are arbitrary.
* The payload passed as `void *add` is a separate object, given by value.
-/

namespace Buff

/-! ## Machine types -/

/-- The C type `unsigned char` (`typedef unsigned char byte;`). -/
abbrev byte := Fin 256

/-- Number of values of `size_t` and `ssize_t` (64 bits). -/
abbrev SIZE_MOD : Nat := 2 ^ 64

/-- Number of values of `int` (32 bits). -/
abbrev INT_MOD : Nat := 2 ^ 32

/-- The conversion `(ssize_t) n` of a `size_t` value: two's complement. -/
def to_ssize_t (n : Nat) : Int :=
  if n % SIZE_MOD < 2 ^ 63 then ((n % SIZE_MOD : Nat) : Int)
  else ((n % SIZE_MOD : Nat) : Int) - (SIZE_MOD : Int)

/-- The conversion of an `ssize_t` value to `int`: the low 32 bits, read as a
signed number. -/
def to_int (z : Int) : Int :=
  if z % (INT_MOD : Int) < 2 ^ 31 then z % (INT_MOD : Int)
  else z % (INT_MOD : Int) - (INT_MOD : Int)

/-- The conversion of an `int` argument to `size_t`. -/
def int_to_size_t (z : Int) : Nat := (z % (SIZE_MOD : Int)).toNat

/-! ## Pointers and the memory primitives of libc -/

/-- A `void *`: `NULL`, or the block it points to. -/
inductive ptr where
  | NULL
  | block (bytes : List byte)
  deriving DecidableEq, Repr

/-- The bytes a pointer gives access to (none for `NULL`). -/
def ptr.bytes : ptr → List byte
  | .NULL => []
  | .block bs => bs

/-- Overwrite the block in place with `data`, starting at offset `off`. -/
def ptr.store : ptr → Nat → List byte → ptr
  | .NULL, _, _ => .NULL
  | .block bs, off, data => .block (bs.take off ++ data ++ bs.drop (off + data.length))

/-- The call `memmove(dest + off, src, n)`; `none` when it reads or writes
outside the objects. -/
def memmove (dest : ptr) (off : Nat) (src : List byte) (n : Nat) : Option ptr :=
  if off + n ≤ dest.bytes.length ∧ n ≤ src.length then some (dest.store off (src.take n))
  else none

/-- The call `memcpy(dest, src, n)`.  `none` when it reads outside the source
or writes through `NULL`.  When `n` exceeds the destination block the copy
runs past its end: the block receives the bytes that fit and the call
returns. -/
def memcpy (dest : ptr) (src : List byte) (n : Nat) : Option ptr :=
  if n ≤ src.length ∧ (n = 0 ∨ dest ≠ .NULL) then
    some (dest.store 0 ((src.take n).take dest.bytes.length))
  else none

/-- The call `memset(dest, c, n)`; `none` when it writes outside the block. -/
def memset (dest : ptr) (c : byte) (n : Nat) : Option ptr :=
  if n ≤ dest.bytes.length then some (dest.store 0 (List.replicate n c))
  else none

/-! ## The environment -/

/-- What the process can observe of its environment: the answers `malloc` is
going to give (`heap k` is the answer to the `k`-th coming call: `none` for
failure, `some g` for a block whose byte `i` initially holds `g i`), and the
bytes written so far to the two standard streams. -/
structure World where
  heap : Nat → Option (Nat → byte)
  stdout : List Char
  stderr : List Char

def STDOUT_FILENO : Nat := 1
def STDERR_FILENO : Nat := 2
def EXIT_FAILURE : Nat := 1

/-- The environment after one answer of the allocator has been consumed. -/
def World.next (w : World) : World :=
  { w with heap := fun k => w.heap (k + 1) }

/-- A new block of `size` bytes whose byte `i` holds `g i`. -/
def fresh (g : Nat → byte) (size : Nat) : List byte :=
  List.ofFn (fun i : Fin size => g i.val)

/-- The call `malloc(size)`: consumes the next answer of the environment. -/
def malloc (w : World) (size : Nat) : World × ptr :=
  (w.next,
   match w.heap 0 with
   | none => .NULL
   | some g => .block (fresh g size))

/-- The call `write(fd, out, n)` with the `n` bytes `out`, all of which the
stream accepts. -/
def write (w : World) (fd : Nat) (out : List Char) : World :=
  if fd = STDOUT_FILENO then { w with stdout := w.stdout ++ out }
  else if fd = STDERR_FILENO then { w with stderr := w.stderr ++ out }
  else w

/-! ## `libs/syscalls.c` -/

/-- The function `print(fd, format)` for a format without conversions: the
text is formatted into a temporary block of `len` bytes and its first
`len - 1` bytes are written.  `none` when the temporary block is `NULL`. -/
def print (w : World) (fd : Nat) (format : List Char) : Option World :=
  let len := format.length + 1
  match malloc w len with
  | (_, .NULL) => none
  | (w1, .block _) => some (write w1 fd ((format ++ ['\x00']).take (len - 1)))

/-- The function `println(fd, msg)`: formats `msg` and a newline into a
temporary block of `len` bytes and writes all `len` bytes, the terminating
NUL included.  `none` when the temporary block is `NULL`. -/
def println (w : World) (fd : Nat) (msg : List Char) : Option World :=
  let len := (msg ++ ['\n']).length + 1
  match malloc w len with
  | (_, .NULL) => none
  | (w1, .block _) => some (write w1 fd ((msg ++ ['\n'] ++ ['\x00']).take len))

/-- The function `sec_malloc(size)`: returns whatever `malloc` returns. -/
def sec_malloc (w : World) (size : Nat) : World × ptr :=
  malloc w size

/-- The function `sec_realloc(old, sizeOld, sizeNew)`: a new block, the
first `sizeOld` bytes of the old one copied into it (as many of them as the
new block holds), the old one zeroed and freed.  `none` when the copy reads
outside the old block or writes through `NULL`, or the zeroing leaves the old
block. -/
def sec_realloc (w : World) (old : ptr) (sizeOld sizeNew : Nat) : Option (World × ptr) :=
  match sec_malloc w sizeNew with
  | (w1, new) =>
    match memcpy new old.bytes sizeOld with
    | none => none
    | some new1 =>
      match memset old 0 sizeOld with
      | none => none
      | some _ => some (w1, new1)

/-! ## `libs/buffer.c` -/

/-- The record `struct buff`. -/
structure Buffer where
  size : Nat
  capacity : Nat
  body : ptr
  deriving DecidableEq, Repr

/-- How a call ends: it returns, or the process ends in `exit(status)` (with
the environment and the buffer as they are at that moment), or the call has
undefined behaviour. -/
inductive Outcome (α : Type) where
  | ret (a : α)
  | exit (status : Nat) (w : World) (buff : Buffer)
  | undefined

/-- The function `buff_init(size)`.  The record itself is allocated first
(`sizeof(Buffer)` is 24) and written through at once, which is undefined
when that allocation failed; the `int` argument is converted to `size_t`. -/
def buff_init (w : World) (size : Int) : Outcome (World × Buffer) :=
  match sec_malloc w 24 with
  | (_, .NULL) => .undefined
  | (w1, .block _) =>
    match sec_malloc w1 (int_to_size_t size) with
    | (w2, p) => .ret (w2, { size := 0, capacity := int_to_size_t size, body := p })

/-- The function `buff_resize(buff, new_size)`. -/
def buff_resize (w : World) (buff : Buffer) (new_size : Nat) : Outcome (World × Buffer) :=
  match sec_realloc w buff.body buff.capacity new_size with
  | none => .undefined
  | some (w1, p) => .ret (w1, { buff with body := p, capacity := new_size })

/-- The function `buff_append(buff, add, size)`. -/
def buff_append (w : World) (buff : Buffer) (add : List byte) (size : Nat) :
    Outcome (World × Buffer) :=
  match (if (buff.size + size) % SIZE_MOD > buff.capacity
         then buff_resize w buff ((buff.size + size) % SIZE_MOD)
         else .ret (w, buff)) with
  | .ret (w1, b1) =>
    match memmove b1.body b1.size add size with
    | none => .undefined
    | some p => .ret (w1, { b1 with body := p, size := (b1.size + size) % SIZE_MOD })
  | o => o

/-- The function `buff_append_byte(buff, add)`. -/
def buff_append_byte (w : World) (buff : Buffer) (add : byte) : Outcome (World × Buffer) :=
  match (if (buff.size + 1) % SIZE_MOD > buff.capacity
         then buff_resize w buff ((buff.size + 1) % SIZE_MOD)
         else .ret (w, buff)) with
  | .ret (w1, b1) =>
    match memmove b1.body b1.size [add] 1 with
    | none => .undefined
    | some p => .ret (w1, { b1 with body := p, size := (b1.size + 1) % SIZE_MOD })
  | o => o

/-- The function `buff_insert(buff, add, size, index)`.  The difference of the two
`ssize_t` values is undefined when it leaves the range of `ssize_t`. -/
def buff_insert (w : World) (buff : Buffer) (add : List byte) (size index : Nat) :
    Outcome (World × Buffer) :=
  match (if (index + size) % SIZE_MOD > buff.capacity
         then buff_resize w buff ((index + size) % SIZE_MOD)
         else .ret (w, buff)) with
  | .ret (w1, b1) =>
    match memmove b1.body index add size with
    | none => .undefined
    | some p =>
      let b2 : Buffer := { b1 with body := p }
      let d : Int := to_ssize_t index - to_ssize_t b2.size
      if d < -(2 ^ 63) ∨ 2 ^ 63 ≤ d then .undefined
      else
        let diff : Int := to_int d
        if diff > 0 then
          match print w1 STDERR_FILENO "Error: buffer insert gap\n".data with
          | none => .undefined
          | some w2 => .exit EXIT_FAILURE w2 b2
        else if diff < 0 then
          match print w1 STDERR_FILENO "Error: buffer insert overlap\n".data with
          | none => .undefined
          | some w2 => .exit EXIT_FAILURE w2 b2
        else .ret (w1, { b2 with size := (b2.size + size) % SIZE_MOD })
  | o => o

/-- The function `buff_size(buff)`. -/
def buff_size (buff : Buffer) : Nat := buff.size

/-- The function `buff_capacity(buff)`. -/
def buff_capacity (buff : Buffer) : Nat := buff.capacity

/-- The function `buff_body(buff)`. -/
def buff_body (buff : Buffer) : ptr := buff.body

/-- The function `buff_clear(buff)`. -/
def buff_clear (w : World) (buff : Buffer) : Outcome (World × Buffer) :=
  match memset buff.body 0 buff.size with
  | none => .undefined
  | some p => .ret (w, { buff with body := p, size := 0 })

/-- Modelled from the spec: the macro `LITTLE_ENDIAN` comes from the system
header `<endian.h>`, which the repository does not contain; `buff_dump` only
compares its argument with it (little-endian mode against any other value).
The value is the one of glibc. -/
def LITTLE_ENDIAN : Int := 1234

/-- Modelled from the spec: the macro `BIG_ENDIAN` of the same system header
(value of glibc); `buff_dump` takes its second branch for it, as for any
value other than `LITTLE_ENDIAN`. -/
def BIG_ENDIAN : Int := 4321

/-- The inner loop `for (int b = 7; b >= 0; b--)` of `buff_dump`, with
`b + 1` bits still to print: one `print` of "1" or "0" for each bit of
`chunk`, the highest first. -/
def dump_bits (w : World) (chunk : byte) : Nat → Option World
  | 0 => some w
  | b + 1 =>
    match print w STDOUT_FILENO (if chunk.val &&& (1 <<< b) ≠ 0 then "1".data else "0".data) with
    | none => none
    | some w1 => dump_bits w1 chunk b

/-- The body of the outer loops of `buff_dump` once `chunk` is read: the
eight bits, then a space. -/
def dump_chunk (w : World) (chunk : byte) : Option World :=
  match dump_bits w chunk 8 with
  | none => none
  | some w1 => print w1 STDOUT_FILENO " ".data

/-- The loop `for (int i = 0; i < numbytes; i++)` of `buff_dump` from index
`i` on, with `numbytes - i` bytes still to print.  `none` when a byte is
read outside the body or a `print` fails. -/
def dump_forward (w : World) (body : ptr) (i : Nat) : Nat → Option World
  | 0 => some w
  | todo + 1 =>
    match body.bytes[i]? with
    | none => none
    | some chunk =>
      match dump_chunk w chunk with
      | none => none
      | some w1 => dump_forward w1 body (i + 1) todo

/-- The loop `for (int i = numbytes - 1; i >= 0; i--)` of `buff_dump`, with
the bytes `i, i - 1, .., 0` still to print. -/
def dump_backward (w : World) (body : ptr) : Nat → Option World
  | 0 => some w
  | i + 1 =>
    match body.bytes[i]? with
    | none => none
    | some chunk =>
      match dump_chunk w chunk with
      | none => none
      | some w1 => dump_backward w1 body i

/-- The function `buff_dump(buff, numbytes, endianess)`.  In the second
branch `numbytes - 1` is computed in `int`, which is undefined for the least
`int`. -/
def buff_dump (w : World) (buff : Buffer) (numbytes endianess : Int) :
    Outcome (World × Buffer) :=
  if endianess = LITTLE_ENDIAN then
    match dump_forward w buff.body 0 numbytes.toNat with
    | none => .undefined
    | some w1 =>
      match println w1 STDOUT_FILENO [] with
      | none => .undefined
      | some w2 => .ret (w2, buff)
  else if numbytes - 1 < -(2 ^ 31) then .undefined
  else
    match dump_backward w buff.body numbytes.toNat with
    | none => .undefined
    | some w1 =>
      match println w1 STDOUT_FILENO [] with
      | none => .undefined
      | some w2 => .ret (w2, buff)

/-! ## Drivers and predicates used in the statements -/

/-- The first statement of `buff_append`, `buff_append_byte` and
`buff_insert`: `if (upto > buff->capacity) buff_resize(buff, upto)`, where
`upto` is the end of the range about to be written, as a `size_t` sum. -/
def growth_step (w : World) (buff : Buffer) (upto : Nat) : Outcome (World × Buffer) :=
  if upto % SIZE_MOD > buff.capacity then buff_resize w buff (upto % SIZE_MOD)
  else .ret (w, buff)

/-- The call `buff_append_byte(buff, add)` made `n` times. -/
def append_byte_times (w : World) (buff : Buffer) (add : byte) : Nat → Outcome (World × Buffer)
  | 0 => .ret (w, buff)
  | n + 1 =>
    match buff_append_byte w buff add with
    | .ret (w1, b1) => append_byte_times w1 b1 add n
    | o => o

/-- A call of one of the mutating operations, with its arguments. -/
inductive Op where
  | append (add : List byte) (size : Nat)
  | append_byte (add : byte)
  | insert (add : List byte) (size index : Nat)
  | clear
  | resize (new_size : Nat)

/-- The payload length of a call (0 for the calls without payload). -/
def Op.payload : Op → Nat
  | .append _ size => size
  | .append_byte _ => 1
  | .insert _ size _ => size
  | .clear => 0
  | .resize _ => 0

/-- The size the size discipline announces after a call: the old size plus
the payload length for the appending calls, 0 for `buff_clear`, the old size
for `buff_resize`. -/
def Op.size_after (buff : Buffer) : Op → Nat
  | .append _ size => buff.size + size
  | .append_byte _ => buff.size + 1
  | .insert _ size _ => buff.size + size
  | .clear => 0
  | .resize _ => buff.size

/-- The arguments of a call respect what the operation asks of its caller:
the payload has the announced length, an insert is at the current size, a
resize does not shrink. -/
def Op.well_called (buff : Buffer) : Op → Prop
  | .append add size => add.length = size
  | .append_byte _ => True
  | .insert add size index => add.length = size ∧ index = buff.size
  | .clear => True
  | .resize new_size => buff.capacity ≤ new_size

/-- One mutating call. -/
def step (w : World) (buff : Buffer) : Op → Outcome (World × Buffer)
  | .append add size => buff_append w buff add size
  | .append_byte add => buff_append_byte w buff add
  | .insert add size index => buff_insert w buff add size index
  | .clear => buff_clear w buff
  | .resize new_size => buff_resize w buff new_size

/-- A sequence of mutating calls, each one made when the one before has
returned. -/
def run (w : World) (buff : Buffer) : List Op → Outcome (World × Buffer)
  | [] => .ret (w, buff)
  | op :: ops =>
    match step w buff op with
    | .ret (w1, b1) => run w1 b1 ops
    | o => o

/-- The call `buff_init(c)` followed by a sequence of mutating calls. -/
def run_from_init (w : World) (c : Int) (ops : List Op) : Outcome (World × Buffer) :=
  match buff_init w c with
  | .ret (w0, b0) => run w0 b0 ops
  | o => o

/-- Every `buff_insert` of the sequence is called with `index` equal to the
size the buffer has at that moment. -/
def inserts_at_size (w : World) (buff : Buffer) : List Op → Bool
  | [] => true
  | op :: ops =>
    (match op with
      | .insert _ _ index => decide (index = buff.size)
      | _ => true)
    && (match step w buff op with
      | .ret (w1, b1) => inserts_at_size w1 b1 ops
      | _ => true)

/-- The same condition for a sequence that follows `buff_init(c)`. -/
def inserts_at_size_from_init (w : World) (c : Int) (ops : List Op) : Bool :=
  match buff_init w c with
  | .ret (w0, b0) => inserts_at_size w0 b0 ops
  | _ => true

/-- Every `buff_resize` of the sequence is called with a new capacity that is
at least the size the buffer has at that moment. -/
def resizes_above_size (w : World) (buff : Buffer) : List Op → Bool
  | [] => true
  | op :: ops =>
    (match op with
      | .resize new_size => decide (buff.size ≤ new_size)
      | _ => true)
    && (match step w buff op with
      | .ret (w1, b1) => resizes_above_size w1 b1 ops
      | _ => true)

/-- The same condition for a sequence that follows `buff_init(c)`. -/
def resizes_above_size_from_init (w : World) (c : Int) (ops : List Op) : Bool :=
  match buff_init w c with
  | .ret (w0, b0) => resizes_above_size w0 b0 ops
  | _ => true

/-- The text `buff_dump` prints for the lowest `n` bits of a byte, the
highest of them first. -/
def bits_text (chunk : byte) : Nat → List Char
  | 0 => []
  | b + 1 => (if chunk.val &&& (1 <<< b) ≠ 0 then '1' else '0') :: bits_text chunk b

/-- The text `buff_dump` prints for one byte: eight bits and a space. -/
def chunk_text (chunk : byte) : List Char := bits_text chunk 8 ++ [' ']

/-- The text of a sequence of bytes, one group after the other. -/
def dump_text (bytes : List byte) : List Char := (bytes.map chunk_text).flatten

/-- The allocator satisfies the next request. -/
def World.malloc_ok (w : World) : Prop := (w.heap 0).isSome = true

instance (w : World) : Decidable w.malloc_ok :=
  inferInstanceAs (Decidable ((w.heap 0).isSome = true))

/-- The allocator satisfies every coming request. -/
def World.malloc_always_ok (w : World) : Prop := ∀ k, (w.heap k).isSome = true

/-- An environment whose allocator always succeeds and hands out blocks
filled with the byte `0xAA`. -/
def World.plenty : World :=
  { heap := fun _ => some (fun _ => 0xAA), stdout := [], stderr := [] }

/-- An environment whose allocator always fails. -/
def World.exhausted : World :=
  { heap := fun _ => none, stdout := [], stderr := [] }

/-- One call of `buff_append` for each payload of the list, in order. -/
def append_each (w : World) (buff : Buffer) : List (List byte) → Outcome (World × Buffer)
  | [] => .ret (w, buff)
  | p :: ps =>
    match buff_append w buff p p.length with
    | .ret (w1, b1) => append_each w1 b1 ps
    | o => o

/-! ## Lemmas on the memory primitives -/

theorem length_fresh (g : Nat → byte) (n : Nat) : (fresh g n).length = n := by
  simp [fresh]

theorem bytes_block (bs : List byte) : (ptr.block bs).bytes = bs := rfl

theorem bytes_NULL : ptr.NULL.bytes = [] := rfl

theorem bytes_store (p : ptr) (off : Nat) (data : List byte)
    (h : off + data.length ≤ p.bytes.length) :
    (p.store off data).bytes = p.bytes.take off ++ data ++ p.bytes.drop (off + data.length) := by
  cases p with
  | NULL =>
    simp [ptr.bytes] at h
    simp [ptr.store, ptr.bytes, h]
  | block bs => simp [ptr.store, ptr.bytes]

theorem length_store (p : ptr) (off : Nat) (data : List byte)
    (h : off + data.length ≤ p.bytes.length) :
    (p.store off data).bytes.length = p.bytes.length := by
  rw [bytes_store p off data h]
  simp
  omega

theorem memmove_in_bounds (dest : ptr) (off : Nat) (src : List byte) (n : Nat)
    (h1 : off + n ≤ dest.bytes.length) (h2 : n ≤ src.length) :
    memmove dest off src n = some (dest.store off (src.take n)) := by
  simp [memmove, h1, h2]

theorem memset_in_bounds (dest : ptr) (c : byte) (n : Nat) (h : n ≤ dest.bytes.length) :
    memset dest c n = some (dest.store 0 (List.replicate n c)) := by
  simp [memset, h]

/-- Reallocation of a block of `sizeOld` bytes, the allocation succeeding:
the new block starts with the bytes of the old one that fit, and ends with
what is left of the fresh block. -/
theorem sec_realloc_ok (w : World) (old : ptr) (sizeOld sizeNew : Nat) (g : Nat → byte)
    (ho : old.bytes.length = sizeOld) (hg : w.heap 0 = some g) :
    sec_realloc w old sizeOld sizeNew
      = some (w.next, .block (old.bytes.take sizeNew ++ (fresh g sizeNew).drop sizeOld)) := by
  have ht : List.take sizeOld old.bytes = old.bytes := List.take_of_length_le (by omega)
  have hd : List.drop (min sizeNew sizeOld) (fresh g sizeNew)
      = List.drop sizeOld (fresh g sizeNew) := by
    by_cases hc : sizeOld ≤ sizeNew
    · rw [Nat.min_eq_right hc]
    · rw [Nat.min_eq_left (by omega), List.drop_of_length_le (by rw [length_fresh]),
        List.drop_of_length_le (by rw [length_fresh]; omega)]
  have h1 : memcpy (.block (fresh g sizeNew)) old.bytes sizeOld
      = some (.block (old.bytes.take sizeNew ++ (fresh g sizeNew).drop sizeOld)) := by
    have hc : sizeOld ≤ old.bytes.length ∧ (sizeOld = 0 ∨ ptr.block (fresh g sizeNew) ≠ .NULL) :=
      ⟨by omega, Or.inr (by simp)⟩
    rw [memcpy, if_pos hc, ht, bytes_block, length_fresh]
    simp only [ptr.store, List.take_zero, List.nil_append, Nat.zero_add, List.length_take, ho, hd]
  have h2 : memset old 0 sizeOld = some (old.store 0 (List.replicate sizeOld 0)) :=
    memset_in_bounds old 0 sizeOld (by omega)
  simp [sec_realloc, sec_malloc, malloc, hg, h1, h2]

/-- Growing reallocation: the new block is the whole old block followed by
the tail of the fresh block. -/
theorem sec_realloc_grow (w : World) (old : ptr) (sizeOld sizeNew : Nat) (g : Nat → byte)
    (ho : old.bytes.length = sizeOld) (hn : sizeOld ≤ sizeNew) (hg : w.heap 0 = some g) :
    sec_realloc w old sizeOld sizeNew
      = some (w.next, .block (old.bytes ++ (fresh g sizeNew).drop sizeOld)) := by
  rw [sec_realloc_ok w old sizeOld sizeNew g ho hg, List.take_of_length_le (by omega)]

/-- Growing: the new body is the whole old body followed by the tail of the
fresh block. -/
theorem buff_resize_grow (w : World) (buff : Buffer) (n : Nat) (g : Nat → byte)
    (hb : buff.body.bytes.length = buff.capacity) (hn : buff.capacity ≤ n)
    (hg : w.heap 0 = some g) :
    buff_resize w buff n = .ret (w.next,
      { buff with body := .block (buff.body.bytes ++ (fresh g n).drop buff.capacity),
                  capacity := n }) := by
  simp [buff_resize, sec_realloc_grow w buff.body buff.capacity n g hb hn hg]

theorem take_store (p : ptr) (off : Nat) (data : List byte)
    (h : off + data.length ≤ p.bytes.length) :
    (p.store off data).bytes.take (off + data.length) = p.bytes.take off ++ data := by
  rw [bytes_store p off data h]
  apply List.take_left'
  simp
  omega

theorem drop_store (p : ptr) (off : Nat) (data : List byte)
    (h : off + data.length ≤ p.bytes.length) :
    (p.store off data).bytes.drop (off + data.length) = p.bytes.drop (off + data.length) := by
  rw [bytes_store p off data h]
  apply List.drop_left'
  simp
  omega

/-! ## What `buff_append` does to a well-formed buffer -/

/-- The buffer `buff_append` returns when the payload fits the capacity. -/
theorem buff_append_fit (w : World) (buff : Buffer) (add : List byte) (size : Nat)
    (hb : buff.body.bytes.length = buff.capacity)
    (hlen : size ≤ add.length) (hfit : buff.size + size < SIZE_MOD)
    (hc : ¬ buff.capacity < buff.size + size) :
    buff_append w buff add size = .ret (w,
      { size := buff.size + size, capacity := buff.capacity,
        body := buff.body.store buff.size (add.take size) }) := by
  have hmod : (buff.size + size) % SIZE_MOD = buff.size + size := Nat.mod_eq_of_lt hfit
  have hmv := memmove_in_bounds buff.body buff.size add size (by omega) hlen
  simp only [buff_append, hmod, gt_iff_lt, hc, if_false, hmv]

/-- The buffer `buff_append` returns when it has to grow. -/
theorem buff_append_grow (w : World) (buff : Buffer) (add : List byte) (size : Nat)
    (g : Nat → byte) (hb : buff.body.bytes.length = buff.capacity)
    (hlen : size ≤ add.length) (hfit : buff.size + size < SIZE_MOD)
    (hc : buff.capacity < buff.size + size) (hg : w.heap 0 = some g) :
    buff_append w buff add size = .ret (w.next,
      { size := buff.size + size, capacity := buff.size + size,
        body := (ptr.block (buff.body.bytes ++ (fresh g (buff.size + size)).drop buff.capacity)).store
          buff.size (add.take size) }) := by
  have hmod : (buff.size + size) % SIZE_MOD = buff.size + size := Nat.mod_eq_of_lt hfit
  have hr := buff_resize_grow w buff (buff.size + size) g hb (by omega) hg
  have hmv := memmove_in_bounds
    (ptr.block (buff.body.bytes ++ (fresh g (buff.size + size)).drop buff.capacity))
    buff.size add size (by simp [bytes_block, length_fresh, hb]; omega) hlen
  simp only [buff_append, hmod, gt_iff_lt, hc, if_true, hr, hmv]

theorem buff_append_ok (w : World) (buff : Buffer) (add : List byte) (size : Nat)
    (hsz : buff.size ≤ buff.capacity) (hb : buff.body.bytes.length = buff.capacity)
    (hlen : size ≤ add.length) (hfit : buff.size + size < SIZE_MOD)
    (hm : buff.capacity < buff.size + size → w.malloc_ok) :
    ∃ w1 b1, buff_append w buff add size = .ret (w1, b1)
      ∧ (w1 = w ∨ w1 = w.next)
      ∧ b1.size = buff.size + size
      ∧ b1.capacity = max buff.capacity (buff.size + size)
      ∧ b1.body.bytes.length = b1.capacity
      ∧ b1.body.bytes.take (buff.size + size) = buff.body.bytes.take buff.size ++ add.take size := by
  have hl : (add.take size).length = size := by simp [hlen]
  by_cases hc : buff.capacity < buff.size + size
  · obtain ⟨g, hg⟩ := Option.isSome_iff_exists.mp (hm hc)
    have hN : (ptr.block (buff.body.bytes ++ (fresh g (buff.size + size)).drop buff.capacity)).bytes.length
        = buff.size + size := by
      simp [bytes_block, length_fresh, hb]
      omega
    have hin : buff.size + (add.take size).length
        ≤ (ptr.block (buff.body.bytes ++ (fresh g (buff.size + size)).drop buff.capacity)).bytes.length := by
      omega
    refine ⟨_, _, buff_append_grow w buff add size g hb hlen hfit hc hg, Or.inr rfl, rfl, ?_, ?_, ?_⟩
    · show buff.size + size = max buff.capacity (buff.size + size)
      omega
    · dsimp only
      rw [length_store _ _ _ hin, hN]
    · dsimp only
      have := take_store _ buff.size (add.take size) hin
      rw [hl] at this
      rw [this, bytes_block, List.take_append_of_le_length (by omega)]
  · have hin : buff.size + (add.take size).length ≤ buff.body.bytes.length := by omega
    refine ⟨_, _, buff_append_fit w buff add size hb hlen hfit hc, Or.inl rfl, rfl, ?_, ?_, ?_⟩
    · show buff.capacity = max buff.capacity (buff.size + size)
      omega
    · dsimp only
      rw [length_store _ _ _ hin, hb]
    · dsimp only
      have := take_store _ buff.size (add.take size) hin
      rw [hl] at this
      exact this

theorem malloc_always_ok_next (w : World) (h : w.malloc_always_ok) : w.next.malloc_always_ok :=
  fun k => h (k + 1)

theorem malloc_ok_of_always (w : World) (h : w.malloc_always_ok) : w.malloc_ok := h 0

/-- A run of appends on a well-formed buffer: size, well-formedness and the
live prefix after the last one. -/
theorem append_each_ok (ps : List (List byte)) :
    ∀ (w : World) (buff : Buffer), buff.size ≤ buff.capacity →
      buff.body.bytes.length = buff.capacity → w.malloc_always_ok →
      buff.size + (ps.map List.length).sum < SIZE_MOD →
      ∃ w1 b1, append_each w buff ps = .ret (w1, b1)
        ∧ b1.size = buff.size + (ps.map List.length).sum
        ∧ b1.size ≤ b1.capacity
        ∧ b1.body.bytes.length = b1.capacity
        ∧ b1.body.bytes.take (buff.size + (ps.map List.length).sum)
            = buff.body.bytes.take buff.size ++ ps.flatten := by
  induction ps with
  | nil =>
    intro w buff hsz hb _ _
    exact ⟨w, buff, rfl, by simp, hsz, hb, by simp⟩
  | cons p ps ih =>
    intro w buff hsz hb hw hfit
    simp only [List.map_cons, List.sum_cons] at hfit ⊢
    obtain ⟨w1, b1, h, hw1, h1, h2, h3, h4⟩ :=
      buff_append_ok w buff p p.length hsz hb (Nat.le_refl _) (by omega)
        (fun _ => malloc_ok_of_always w hw)
    have hw1ok : w1.malloc_always_ok := by
      rcases hw1 with rfl | rfl
      · exact hw
      · exact malloc_always_ok_next w hw
    obtain ⟨w2, b2, g, g1, g2, g3, g4⟩ := ih w1 b1 (by omega) h3 hw1ok (by omega)
    refine ⟨w2, b2, ?_, by omega, g2, g3, ?_⟩
    · simp only [append_each, h, g]
    · have e : buff.size + (p.length + (ps.map List.length).sum)
          = b1.size + (ps.map List.length).sum := by omega
      rw [e, g4, h1, h4, List.take_length, List.flatten_cons, List.append_assoc]

/-! ## Insert at the end -/

theorem to_int_zero : to_int 0 = 0 := by decide

/-- After the optional growth and the copy, an insert whose index is the
current size takes the third branch, the one that advances `size`. -/
theorem insert_tail_at_size (w1 : World) (b1 : Buffer) (add : List byte) (size : Nat) :
    (match memmove b1.body b1.size add size with
      | none => (Outcome.undefined : Outcome (World × Buffer))
      | some p =>
        let b2 : Buffer := { b1 with body := p }
        let d : Int := to_ssize_t b1.size - to_ssize_t b2.size
        if d < -(2 ^ 63) ∨ 2 ^ 63 ≤ d then .undefined
        else
          let diff : Int := to_int d
          if diff > 0 then
            match print w1 STDERR_FILENO "Error: buffer insert gap\n".data with
            | none => .undefined
            | some w2 => .exit EXIT_FAILURE w2 b2
          else if diff < 0 then
            match print w1 STDERR_FILENO "Error: buffer insert overlap\n".data with
            | none => .undefined
            | some w2 => .exit EXIT_FAILURE w2 b2
          else .ret (w1, { b2 with size := (b2.size + size) % SIZE_MOD }))
    = (match memmove b1.body b1.size add size with
      | none => .undefined
      | some p => .ret (w1, { b1 with body := p, size := (b1.size + size) % SIZE_MOD })) := by
  cases memmove b1.body b1.size add size with
  | none => rfl
  | some p => simp [to_int_zero]

/-- Called with `index` equal to the current size, `buff_insert` is
`buff_append`, whatever the buffer and the environment. -/
theorem buff_insert_size_eq_append (w : World) (buff : Buffer) (add : List byte) (size : Nat) :
    buff_insert w buff add size buff.size = buff_append w buff add size := by
  unfold buff_insert buff_append
  by_cases hc : (buff.size + size) % SIZE_MOD > buff.capacity
  · simp only [hc, if_true]
    unfold buff_resize
    cases sec_realloc w buff.body buff.capacity ((buff.size + size) % SIZE_MOD) with
    | none => rfl
    | some r =>
      obtain ⟨w1, p⟩ := r
      exact insert_tail_at_size w1 { buff with body := p, capacity := (buff.size + size) % SIZE_MOD } add size
  · simp only [hc, if_false]
    exact insert_tail_at_size w buff add size

/-! ## Insert when the 32-bit difference is zero -/

/-- The buffer `buff_insert` returns when the range `[index, index + size)`
fits the capacity and the truncated difference is zero. -/
theorem buff_insert_fit_zero (w : World) (buff : Buffer) (add : List byte) (size index : Nat)
    (hb : buff.body.bytes.length = buff.capacity)
    (hlen : size ≤ add.length) (hfit : index + size < SIZE_MOD)
    (hc : ¬ buff.capacity < index + size)
    (hd : ¬ (to_ssize_t index - to_ssize_t buff.size < -(2 ^ 63)
              ∨ 2 ^ 63 ≤ to_ssize_t index - to_ssize_t buff.size))
    (hz : to_int (to_ssize_t index - to_ssize_t buff.size) = 0) :
    buff_insert w buff add size index = .ret (w,
      { size := (buff.size + size) % SIZE_MOD, capacity := buff.capacity,
        body := buff.body.store index (add.take size) }) := by
  have hmod : (index + size) % SIZE_MOD = index + size := Nat.mod_eq_of_lt hfit
  have hmv := memmove_in_bounds buff.body index add size (by omega) hlen
  simp only [buff_insert, hmod, gt_iff_lt, hc, if_false, hmv, hd, hz, lt_self_iff_false]

/-- The buffer `buff_insert` returns when it has to grow and the truncated
difference is zero. -/
theorem buff_insert_grow_zero (w : World) (buff : Buffer) (add : List byte) (size index : Nat)
    (g : Nat → byte) (hb : buff.body.bytes.length = buff.capacity)
    (hlen : size ≤ add.length) (hfit : index + size < SIZE_MOD)
    (hc : buff.capacity < index + size) (hg : w.heap 0 = some g)
    (hd : ¬ (to_ssize_t index - to_ssize_t buff.size < -(2 ^ 63)
              ∨ 2 ^ 63 ≤ to_ssize_t index - to_ssize_t buff.size))
    (hz : to_int (to_ssize_t index - to_ssize_t buff.size) = 0) :
    buff_insert w buff add size index = .ret (w.next,
      { size := (buff.size + size) % SIZE_MOD, capacity := index + size,
        body := (ptr.block (buff.body.bytes ++ (fresh g (index + size)).drop buff.capacity)).store
          index (add.take size) }) := by
  have hmod : (index + size) % SIZE_MOD = index + size := Nat.mod_eq_of_lt hfit
  have hr := buff_resize_grow w buff (index + size) g hb (by omega) hg
  have hmv := memmove_in_bounds
    (ptr.block (buff.body.bytes ++ (fresh g (index + size)).drop buff.capacity))
    index add size (by simp [bytes_block, length_fresh, hb]; omega) hlen
  simp only [buff_insert, hmod, gt_iff_lt, hc, if_true, hr, hmv, hd, hz, lt_self_iff_false,
    if_false]

/-- The one-byte append runs the code of `buff_append` on a payload of one
byte. -/
theorem buff_append_byte_unfold (w : World) (buff : Buffer) (add : byte) :
    buff_append_byte w buff add = buff_append w buff [add] 1 := rfl

/-! ## Append -/

/-- C1: on a buffer with `size ≤ capacity` whose body has `capacity` bytes,
`buff_append` with a payload of `size` bytes returns a buffer whose size is
the old size plus the payload length and whose first `old_size + size` bytes
are the old live bytes followed by the payload.  The allocator is assumed to
satisfy the request when the buffer has to grow, and the new size to fit
`size_t`. -/
theorem buff_append_content (w : World) (buff : Buffer) (add : List byte) (size : Nat)
    (hsz : buff.size ≤ buff.capacity) (hb : buff.body.bytes.length = buff.capacity)
    (hlen : add.length = size) (hfit : buff.size + size < SIZE_MOD)
    (hm : buff.capacity < buff.size + size → w.malloc_ok) :
    ∃ w1 b1, buff_append w buff add size = .ret (w1, b1)
      ∧ b1.size = buff.size + size
      ∧ b1.body.bytes.take (buff.size + size) = buff.body.bytes.take buff.size ++ add := by
  obtain ⟨w1, b1, h, -, h1, -, -, h2⟩ := buff_append_ok w buff add size hsz hb (by omega) hfit hm
  have ht : add.take size = add := List.take_of_length_le (by omega)
  refine ⟨w1, b1, h, h1, ?_⟩
  rw [h2, ht]

theorem buff_append_content_witness :
    ∃ w1 b1, buff_append World.plenty ⟨1, 2, .block [7, 0]⟩ [8, 9] 2 = .ret (w1, b1)
      ∧ b1.size = 3 ∧ b1.body.bytes.take 3 = [7, 8, 9] :=
  buff_append_content World.plenty ⟨1, 2, .block [7, 0]⟩ [8, 9] 2
    (by decide) (by decide) (by decide) (by decide) (by decide)

/-- C2: starting from a well-formed buffer of size `s0`, appending the
payloads `p1 .. pk` one after the other (each allocation being satisfied, the
final size fitting `size_t`) returns a buffer of size `s0 + L`, `L` the total
payload length, whose bytes `[s0, s0 + L)` are `p1 ++ .. ++ pk`. -/
theorem append_each_concat (w : World) (buff : Buffer) (ps : List (List byte))
    (hsz : buff.size ≤ buff.capacity) (hb : buff.body.bytes.length = buff.capacity)
    (hw : w.malloc_always_ok) (hfit : buff.size + (ps.map List.length).sum < SIZE_MOD) :
    ∃ w1 b1, append_each w buff ps = .ret (w1, b1)
      ∧ b1.size = buff.size + (ps.map List.length).sum
      ∧ (b1.body.bytes.drop buff.size).take (ps.map List.length).sum = ps.flatten := by
  obtain ⟨w1, b1, h, h1, -, -, h4⟩ := append_each_ok ps w buff hsz hb hw hfit
  refine ⟨w1, b1, h, h1, ?_⟩
  have hl : (buff.body.bytes.take buff.size).length = buff.size := by
    simp
    omega
  have := congrArg (List.drop buff.size) h4
  rw [List.drop_left' hl] at this
  rw [← this, List.drop_take]
  simp

theorem append_each_concat_witness :
    ∃ w1 b1, append_each World.plenty ⟨1, 2, .block [7, 0]⟩ [[8, 9], [], [10]] = .ret (w1, b1)
      ∧ b1.size = 4
      ∧ (b1.body.bytes.drop 1).take 3 = [8, 9, 10] :=
  append_each_concat World.plenty ⟨1, 2, .block [7, 0]⟩ [[8, 9], [], [10]]
    (by decide) (by decide) (fun _ => rfl) (by decide)

/-- C3: on a well-formed buffer (`size ≤ capacity`, a body of `capacity`
bytes), with a payload of `size` bytes, `buff_insert` called with `index`
equal to the current size returns normally and returns the very buffer (and
environment) that `buff_append` returns from the same state. -/
theorem buff_insert_as_append (w : World) (buff : Buffer) (add : List byte) (size : Nat)
    (hsz : buff.size ≤ buff.capacity) (hb : buff.body.bytes.length = buff.capacity)
    (hlen : add.length = size) (hfit : buff.size + size < SIZE_MOD)
    (hm : buff.capacity < buff.size + size → w.malloc_ok) :
    ∃ w1 b1, buff_insert w buff add size buff.size = .ret (w1, b1)
      ∧ buff_append w buff add size = .ret (w1, b1) := by
  obtain ⟨w1, b1, h, -⟩ := buff_append_ok w buff add size hsz hb (by omega) hfit hm
  exact ⟨w1, b1, by rw [buff_insert_size_eq_append, h], h⟩

theorem buff_insert_as_append_witness :
    ∃ w1 b1, buff_insert World.plenty ⟨1, 2, .block [7, 0]⟩ [8, 9] 2 1 = .ret (w1, b1)
      ∧ buff_append World.plenty ⟨1, 2, .block [7, 0]⟩ [8, 9] 2 = .ret (w1, b1) :=
  buff_insert_as_append World.plenty ⟨1, 2, .block [7, 0]⟩ [8, 9] 2
    (by decide) (by decide) (by decide) (by decide) (by decide)

/-! ## Insert away from the end -/

/-- C4 (the code departs from the claim): on the empty buffer, `buff_insert`
of one byte at index `2 ^ 32` is not rejected.  The difference `index - size`
is `2 ^ 32`, whose low 32 bits are zero, so the call returns normally and
the size becomes 1. -/
theorem buff_insert_accepts_index_4294967296 :
    ∃ w1 b1, buff_insert World.plenty ⟨0, 0, .NULL⟩ [0x61] 1 4294967296 = .ret (w1, b1)
      ∧ (4294967296 : Nat) ≠ 0 ∧ b1.size = 1 ∧ b1.capacity = 4294967297 :=
  ⟨_, _, buff_insert_grow_zero World.plenty ⟨0, 0, .NULL⟩ [0x61] 1 4294967296 (fun _ => 0xAA)
      rfl (by decide) (by decide) (by decide) rfl (by decide) (by decide),
    by decide, rfl, rfl⟩

/-- C5 (the code departs from the claim): the copy and the growth come before
the test of the index.  Inserting `[9]` at index 0 into the full two-byte
buffer `[1, 2]` ends in `exit(EXIT_FAILURE)` with the live byte at offset 0
overwritten; inserting it at index 5 ends in `exit(EXIT_FAILURE)` with the
capacity grown from 2 to 6 and the byte written at offset 5. -/
theorem buff_insert_rejects_after_writing :
    (∃ w1, buff_insert World.plenty ⟨2, 2, .block [1, 2]⟩ [9] 1 0
        = .exit EXIT_FAILURE w1 ⟨2, 2, .block [9, 2]⟩
      ∧ w1.stderr = "Error: buffer insert overlap\n".data)
    ∧ (∃ w1, buff_insert World.plenty ⟨2, 2, .block [1, 2]⟩ [9] 1 5
        = .exit EXIT_FAILURE w1 ⟨2, 6, .block [1, 2, 0xAA, 0xAA, 0xAA, 9]⟩
      ∧ w1.stderr = "Error: buffer insert gap\n".data) :=
  ⟨⟨_, rfl, rfl⟩, ⟨_, rfl, rfl⟩⟩

/-- C6 (the code departs from the claim): a full buffer of `2 ^ 32` bytes
accepts an insert of one byte at index 0, because the low 32 bits of
`0 - 2 ^ 32` are zero.  Nothing grows (the range `[0, 1)` fits), the size is
advanced all the same, and the call returns with `size = capacity + 1`. -/
theorem buff_insert_returns_size_above_capacity :
    ∃ w1 b1,
      buff_insert World.plenty
          ⟨4294967296, 4294967296, .block (List.replicate 4294967296 0)⟩ [1] 1 0
        = .ret (w1, b1)
      ∧ b1.capacity = 4294967296 ∧ b1.size = 4294967297 ∧ ¬ b1.capacity ≥ b1.size :=
  ⟨_, _, buff_insert_fit_zero World.plenty
      ⟨4294967296, 4294967296, .block (List.replicate 4294967296 0)⟩ [1] 1 0
      (List.length_replicate _ _) (by decide) (by decide) (by decide) (by decide) (by decide),
    rfl, rfl, by decide⟩

/-! ## Growth and resize -/

/-- C7: on a well-formed buffer, `buff_append` with a payload of `size` bytes
leaves the capacity as it is when `buff.size + size ≤ capacity` and makes it
exactly `buff.size + size` otherwise; so does `buff_insert` at
`index = buff.size`, and so does `buff_append_byte` with 1 for `size`. -/
theorem exact_fit_growth (w : World) (buff : Buffer) (add : List byte) (size : Nat) (x : byte)
    (hsz : buff.size ≤ buff.capacity) (hb : buff.body.bytes.length = buff.capacity)
    (hlen : add.length = size)
    (hfit : buff.size + size < SIZE_MOD) (hfit1 : buff.size + 1 < SIZE_MOD)
    (hm : buff.capacity < buff.size + size → w.malloc_ok)
    (hm1 : buff.capacity < buff.size + 1 → w.malloc_ok) :
    (∃ w1 b1, buff_append w buff add size = .ret (w1, b1)
        ∧ b1.capacity = if buff.size + size ≤ buff.capacity then buff.capacity
                        else buff.size + size)
    ∧ (∃ w1 b1, buff_insert w buff add size buff.size = .ret (w1, b1)
        ∧ b1.capacity = if buff.size + size ≤ buff.capacity then buff.capacity
                        else buff.size + size)
    ∧ (∃ w1 b1, buff_append_byte w buff x = .ret (w1, b1)
        ∧ b1.capacity = if buff.size + 1 ≤ buff.capacity then buff.capacity
                        else buff.size + 1) := by
  obtain ⟨w1, b1, h, -, -, hcap, -⟩ :=
    buff_append_ok w buff add size hsz hb (by omega) hfit hm
  obtain ⟨w2, b2, h', -, -, hcap', -⟩ :=
    buff_append_ok w buff [x] 1 hsz hb (by simp) hfit1 hm1
  have e : b1.capacity = if buff.size + size ≤ buff.capacity then buff.capacity
      else buff.size + size := by
    rw [hcap]; split <;> omega
  have e' : b2.capacity = if buff.size + 1 ≤ buff.capacity then buff.capacity
      else buff.size + 1 := by
    rw [hcap']; split <;> omega
  exact ⟨⟨w1, b1, h, e⟩, ⟨w1, b1, by rw [buff_insert_size_eq_append, h], e⟩,
    ⟨w2, b2, by rw [buff_append_byte_unfold, h'], e'⟩⟩

theorem exact_fit_growth_witness :
    (∃ w1 b1, buff_append World.plenty ⟨1, 2, .block [7, 0]⟩ [8, 9] 2 = .ret (w1, b1)
        ∧ b1.capacity = 3)
    ∧ (∃ w1 b1, buff_insert World.plenty ⟨1, 2, .block [7, 0]⟩ [8, 9] 2 1 = .ret (w1, b1)
        ∧ b1.capacity = 3)
    ∧ (∃ w1 b1, buff_append_byte World.plenty ⟨1, 2, .block [7, 0]⟩ 5 = .ret (w1, b1)
        ∧ b1.capacity = 2) :=
  exact_fit_growth World.plenty ⟨1, 2, .block [7, 0]⟩ [8, 9] 2 5
    (by decide) (by decide) (by decide) (by decide) (by decide) (by decide) (by decide)

/-- C8: on a well-formed buffer, `buff_resize` to a capacity that is at least
the current one (the allocator satisfying the request) returns, and every
position below `min size new_size` holds the byte it held before. -/
theorem buff_resize_fidelity (w : World) (buff : Buffer) (new_size : Nat)
    (hsz : buff.size ≤ buff.capacity) (hb : buff.body.bytes.length = buff.capacity)
    (hn : buff.capacity ≤ new_size) (hm : w.malloc_ok) :
    ∃ w1 b1, buff_resize w buff new_size = .ret (w1, b1)
      ∧ ∀ i, i < min buff.size new_size →
          ∃ x, buff.body.bytes[i]? = some x ∧ b1.body.bytes[i]? = some x := by
  obtain ⟨g, hg⟩ := Option.isSome_iff_exists.mp hm
  refine ⟨_, _, buff_resize_grow w buff new_size g hb hn hg, ?_⟩
  intro i hi
  have hlt : i < buff.body.bytes.length := by omega
  refine ⟨buff.body.bytes[i], List.getElem?_eq_getElem hlt, ?_⟩
  dsimp only
  rw [bytes_block, List.getElem?_append_left hlt, List.getElem?_eq_getElem hlt]

theorem buff_resize_fidelity_witness :
    ∃ w1 b1, buff_resize World.plenty ⟨2, 3, .block [7, 8, 9]⟩ 5 = .ret (w1, b1)
      ∧ ∀ i, i < 2 → ∃ x, [(7 : byte), 8, 9][i]? = some x ∧ b1.body.bytes[i]? = some x :=
  buff_resize_fidelity World.plenty ⟨2, 3, .block [7, 8, 9]⟩ 5
    (by decide) (by decide) (by decide) (by decide)

/-- C10: on a well-formed buffer, `buff_clear` returns a buffer of size 0 and
of the same capacity, whose bytes `[0, old_size)` are zero and whose bytes
`[old_size, capacity)` are the ones it had. -/
theorem buff_clear_zeroes (w : World) (buff : Buffer)
    (hsz : buff.size ≤ buff.capacity) (hb : buff.body.bytes.length = buff.capacity) :
    ∃ b1, buff_clear w buff = .ret (w, b1)
      ∧ b1.size = 0
      ∧ b1.capacity = buff.capacity
      ∧ b1.body.bytes.length = buff.capacity
      ∧ b1.body.bytes.take buff.size = List.replicate buff.size 0
      ∧ b1.body.bytes.drop buff.size = buff.body.bytes.drop buff.size := by
  have hin : 0 + (List.replicate buff.size (0 : byte)).length ≤ buff.body.bytes.length := by
    simp
    omega
  have hms := memset_in_bounds buff.body 0 buff.size (by omega)
  have ht := take_store buff.body 0 (List.replicate buff.size 0) hin
  have hd := drop_store buff.body 0 (List.replicate buff.size 0) hin
  have hl := length_store buff.body 0 (List.replicate buff.size 0) hin
  simp only [List.length_replicate, Nat.zero_add, List.take_zero, List.nil_append] at ht hd
  refine ⟨{ buff with body := buff.body.store 0 (List.replicate buff.size 0), size := 0 },
    ?_, rfl, rfl, ?_, ht, hd⟩
  · simp only [buff_clear, hms]
  · exact hl.trans hb

theorem buff_clear_zeroes_witness :
    ∃ b1, buff_clear World.plenty ⟨2, 4, .block [1, 2, 3, 4]⟩ = .ret (World.plenty, b1)
      ∧ b1.size = 0
      ∧ b1.capacity = 4
      ∧ b1.body.bytes.length = 4
      ∧ b1.body.bytes.take 2 = [0, 0]
      ∧ b1.body.bytes.drop 2 = [3, 4] :=
  buff_clear_zeroes World.plenty ⟨2, 4, .block [1, 2, 3, 4]⟩ (by decide) (by decide)

theorem store_nil (p : ptr) : p.store 0 [] = p := by
  cases p with
  | NULL => rfl
  | block bs => simp [ptr.store]

/-- Clearing a buffer of size 0 changes nothing. -/
theorem buff_clear_of_size_zero (w : World) (buff : Buffer) (h : buff.size = 0) :
    buff_clear w buff = .ret (w, buff) := by
  have hms : memset buff.body 0 buff.size = some buff.body := by
    rw [memset_in_bounds buff.body 0 buff.size (by omega), h]
    simp [store_nil]
  simp only [buff_clear, hms]
  rw [← h]

/-- C11: on a well-formed buffer, a second `buff_clear` returns the very state
the first one returned: size 0, the bytes `[0, old_size)` zero, and the
capacity the buffer had at the start, after the first call as after the
second. -/
theorem buff_clear_idempotent (w : World) (buff : Buffer)
    (hsz : buff.size ≤ buff.capacity) (hb : buff.body.bytes.length = buff.capacity) :
    ∃ b1, buff_clear w buff = .ret (w, b1)
      ∧ buff_clear w b1 = .ret (w, b1)
      ∧ b1.size = 0
      ∧ b1.capacity = buff.capacity
      ∧ b1.body.bytes.take buff.size = List.replicate buff.size 0 := by
  have hin : 0 + (List.replicate buff.size (0 : byte)).length ≤ buff.body.bytes.length := by
    simp
    omega
  have hms := memset_in_bounds buff.body 0 buff.size (by omega)
  have ht := take_store buff.body 0 (List.replicate buff.size 0) hin
  simp only [List.length_replicate, Nat.zero_add, List.take_zero, List.nil_append] at ht
  refine ⟨{ buff with body := buff.body.store 0 (List.replicate buff.size 0), size := 0 },
    ?_, buff_clear_of_size_zero w _ rfl, rfl, rfl, ht⟩
  simp only [buff_clear, hms]

theorem buff_clear_idempotent_witness :
    ∃ b1, buff_clear World.plenty ⟨2, 4, .block [1, 2, 3, 4]⟩ = .ret (World.plenty, b1)
      ∧ buff_clear World.plenty b1 = .ret (World.plenty, b1)
      ∧ b1.size = 0
      ∧ b1.capacity = 4
      ∧ b1.body.bytes.take 2 = [0, 0] :=
  buff_clear_idempotent World.plenty ⟨2, 4, .block [1, 2, 3, 4]⟩ (by decide) (by decide)

/-! ## The invariant `size ≤ capacity` -/

/-- A `buff_resize` that returns has kept `size` and set `capacity` to the
requested value. -/
theorem buff_resize_ret (w : World) (buff : Buffer) (n : Nat) (w1 : World) (b1 : Buffer)
    (h : buff_resize w buff n = .ret (w1, b1)) :
    b1.size = buff.size ∧ b1.capacity = n := by
  unfold buff_resize at h
  cases hr : sec_realloc w buff.body buff.capacity n with
  | none => rw [hr] at h; cases h
  | some r =>
    obtain ⟨w2, p⟩ := r
    rw [hr] at h
    simp only [Outcome.ret.injEq, Prod.mk.injEq] at h
    obtain ⟨-, rfl⟩ := h
    exact ⟨rfl, rfl⟩

/-- The statement `growth_step` is the first statement of `buff_append`. -/
theorem buff_append_unfold (w : World) (buff : Buffer) (add : List byte) (size : Nat) :
    buff_append w buff add size =
      match growth_step w buff (buff.size + size) with
      | .ret (w1, b1) =>
        (match memmove b1.body b1.size add size with
          | none => .undefined
          | some p => .ret (w1, { b1 with body := p, size := (b1.size + size) % SIZE_MOD }))
      | o => o := rfl

/-- After a `growth_step` that returns, the capacity covers the requested end
(as a `size_t`), and the size is the one before. -/
theorem growth_step_ret (w : World) (buff : Buffer) (upto : Nat) (w1 : World) (b1 : Buffer)
    (h : growth_step w buff upto = .ret (w1, b1)) :
    b1.size = buff.size ∧ upto % SIZE_MOD ≤ b1.capacity ∧ buff.capacity ≤ b1.capacity := by
  unfold growth_step at h
  split at h
  · rename_i hc
    obtain ⟨h1, h2⟩ := buff_resize_ret w buff _ w1 b1 h
    exact ⟨h1, by omega, by omega⟩
  · rename_i hc
    simp only [Outcome.ret.injEq, Prod.mk.injEq] at h
    obtain ⟨-, rfl⟩ := h
    exact ⟨rfl, by omega, Nat.le_refl _⟩

/-- Whatever the buffer, an append that returns leaves `size ≤ capacity`. -/
theorem buff_append_ret_le (w : World) (buff : Buffer) (add : List byte) (size : Nat)
    (w1 : World) (b1 : Buffer) (h : buff_append w buff add size = .ret (w1, b1)) :
    b1.size ≤ b1.capacity := by
  rw [buff_append_unfold] at h
  cases hg : growth_step w buff (buff.size + size) with
  | undefined => rw [hg] at h; cases h
  | exit st w2 b2 => rw [hg] at h; cases h
  | ret r =>
    obtain ⟨w2, b2⟩ := r
    rw [hg] at h
    obtain ⟨h1, h2, -⟩ := growth_step_ret w buff _ w2 b2 hg
    cases hm : memmove b2.body b2.size add size with
    | none => simp [hm] at h
    | some p =>
      simp only [hm, Outcome.ret.injEq, Prod.mk.injEq] at h
      obtain ⟨-, rfl⟩ := h
      show (b2.size + size) % SIZE_MOD ≤ b2.capacity
      rw [h1]
      exact h2

/-- One mutating call that returns leaves `size ≤ capacity`, an insert being
called with `index` equal to the size and a resize with a new capacity that
is at least the size. -/
theorem step_keeps_le (w : World) (buff : Buffer) (op : Op) (w1 : World) (b1 : Buffer)
    (hop : ∀ add size index, op = .insert add size index → index = buff.size)
    (hres : ∀ n, op = .resize n → buff.size ≤ n)
    (h : step w buff op = .ret (w1, b1)) : b1.size ≤ b1.capacity := by
  cases op with
  | append add size => exact buff_append_ret_le w buff add size w1 b1 h
  | append_byte x =>
    exact buff_append_ret_le w buff [x] 1 w1 b1 (by rw [← buff_append_byte_unfold]; exact h)
  | insert add size index =>
    have hi := hop add size index rfl
    subst hi
    exact buff_append_ret_le w buff add size w1 b1
      (by rw [← buff_insert_size_eq_append]; exact h)
  | clear =>
    simp only [step, buff_clear] at h
    cases hm : memset buff.body 0 buff.size with
    | none => simp [hm] at h
    | some p =>
      simp only [hm, Outcome.ret.injEq, Prod.mk.injEq] at h
      obtain ⟨-, rfl⟩ := h
      exact Nat.zero_le _
  | resize n =>
    obtain ⟨h1, h2⟩ := buff_resize_ret w buff n w1 b1 h
    have := hres n rfl
    omega

/-- A sequence of mutating calls keeps `size ≤ capacity`, every insert being
called with `index` equal to the size at that moment and every resize with a
new capacity that is at least that size. -/
theorem run_keeps_le (ops : List Op) :
    ∀ (w : World) (buff : Buffer) (w1 : World) (b1 : Buffer),
      buff.size ≤ buff.capacity → inserts_at_size w buff ops = true →
      resizes_above_size w buff ops = true →
      run w buff ops = .ret (w1, b1) → b1.size ≤ b1.capacity := by
  induction ops with
  | nil =>
    intro w buff w1 b1 hsz _ _ h
    simp only [run, Outcome.ret.injEq, Prod.mk.injEq] at h
    obtain ⟨-, rfl⟩ := h
    exact hsz
  | cons op ops ih =>
    intro w buff w1 b1 hsz hins hres h
    simp only [run] at h
    simp only [inserts_at_size, Bool.and_eq_true] at hins
    simp only [resizes_above_size, Bool.and_eq_true] at hres
    obtain ⟨hop, hrest⟩ := hins
    obtain ⟨hrs, hrrest⟩ := hres
    cases hs : step w buff op with
    | undefined => rw [hs] at h; cases h
    | exit st w2 b2 => rw [hs] at h; cases h
    | ret r =>
      obtain ⟨w2, b2⟩ := r
      rw [hs] at h hrest hrrest
      have h2 : b2.size ≤ b2.capacity := by
        apply step_keeps_le w buff op w2 b2 _ _ hs
        · intro add size index e
          subst e
          simpa using hop
        · intro n e
          subst e
          simpa using hrs
      exact ih w2 b2 w1 b1 h2 hrest hrrest h

theorem step_append (w : World) (buff : Buffer) (add : List byte) (size : Nat) :
    step w buff (.append add size) = buff_append w buff add size := rfl

theorem step_insert (w : World) (buff : Buffer) (add : List byte) (size index : Nat) :
    step w buff (.insert add size index) = buff_insert w buff add size index := rfl

theorem run_cons_ret (w : World) (buff : Buffer) (op : Op) (ops : List Op)
    (w1 : World) (b1 : Buffer) (h : step w buff op = .ret (w1, b1)) :
    run w buff (op :: ops) = run w1 b1 ops := by
  simp only [run, h]

theorem run_from_init_ret (w : World) (c : Int) (ops : List Op) (w0 : World) (b0 : Buffer)
    (h : buff_init w c = .ret (w0, b0)) : run_from_init w c ops = run w0 b0 ops := by
  simp only [run_from_init, h]

/-- The truncation of the index test breaks the invariant as well:
`buff_init(0)`, an append of `2 ^ 32` bytes and an insert of one byte at
index 0 (accepted, the low 32 bits of `0 - 2 ^ 32` being zero) reach a state
with `size = capacity + 1`. -/
theorem size_above_capacity_by_truncation :
    ∃ w1 b1,
      run_from_init World.plenty 0
          [.append (List.replicate 4294967296 0) 4294967296, .insert [1] 1 0]
        = .ret (w1, b1)
      ∧ b1.capacity = 4294967296 ∧ b1.size = 4294967297 ∧ ¬ b1.size ≤ b1.capacity := by
  have hinit : buff_init World.plenty 0 = .ret (World.plenty, ⟨0, 0, .block []⟩) := rfl
  have hl : 4294967296 ≤ (List.replicate 4294967296 (0 : byte)).length :=
    Nat.le_of_eq (List.length_replicate _ _).symm
  have ha := buff_append_grow World.plenty ⟨0, 0, .block []⟩ (List.replicate 4294967296 0)
    4294967296 (fun _ => 0xAA) rfl hl (by decide) (by decide) rfl
  have e : ((List.replicate 4294967296 (0 : byte)).take 4294967296).length = 4294967296 := by
    rw [List.length_take, List.length_replicate, Nat.min_self]
  have hb1 : ((ptr.block ([] ++ (fresh (fun _ => 0xAA) (0 + 4294967296)).drop 0)).store 0
      ((List.replicate 4294967296 (0 : byte)).take 4294967296)).bytes.length
        = 0 + 4294967296 := by
    rw [length_store, bytes_block, List.nil_append, List.drop_zero, length_fresh]
    rw [bytes_block, List.nil_append, List.drop_zero, length_fresh, e]
  have hi := buff_insert_fit_zero World.plenty.next
    { size := 0 + 4294967296, capacity := 0 + 4294967296,
      body := (ptr.block ([] ++ (fresh (fun _ => 0xAA) (0 + 4294967296)).drop 0)).store 0
        ((List.replicate 4294967296 (0 : byte)).take 4294967296) }
    [1] 1 0 hb1 (by decide) (by decide) (by decide) (by decide) (by decide)
  have s1 := (step_append World.plenty ⟨0, 0, .block []⟩
    (List.replicate 4294967296 0) 4294967296).trans ha
  have s2 := (step_insert World.plenty.next
    { size := 0 + 4294967296, capacity := 0 + 4294967296,
      body := (ptr.block ([] ++ (fresh (fun _ => 0xAA) (0 + 4294967296)).drop 0)).store 0
        ((List.replicate 4294967296 (0 : byte)).take 4294967296) } [1] 1 0).trans hi
  exact ⟨_, _,
    (run_from_init_ret _ _ _ _ _ hinit).trans
      ((run_cons_ret _ _ _ _ _ _ s1).trans (run_cons_ret _ _ _ _ _ _ s2)),
    rfl, rfl, by decide⟩

/-- C12, as it is stated, fails on shrinking: `buff_resize` assigns the
capacity without looking at the size, so `buff_init(4)`, an append of three
bytes and `buff_resize(buf, 2)` reach a state with size 3 and capacity 2. -/
theorem size_above_capacity_after_shrink :
    ∃ w1 b1,
      run_from_init World.plenty 4 [.append [1, 2, 3] 3, .resize 2] = .ret (w1, b1)
      ∧ b1.size = 3 ∧ b1.capacity = 2 ∧ ¬ b1.size ≤ b1.capacity :=
  ⟨World.plenty, ⟨3, 2, .block [1, 2]⟩, rfl, rfl, rfl, by decide⟩

/-- C12, amended: in every state reached from `buff_init(c)` by a sequence of
calls of `buff_append`, `buff_append_byte`, `buff_insert`, `buff_clear` and
`buff_resize` that all return, every `buff_insert` being called with `index`
equal to the size at that moment and every `buff_resize` with a new capacity
that is at least the size at that moment (smaller than the capacity or not),
`0 ≤ size ≤ capacity` holds. -/
theorem size_le_capacity_reachable (w : World) (c : Int) (ops : List Op)
    (w1 : World) (b1 : Buffer)
    (hins : inserts_at_size_from_init w c ops = true)
    (hres : resizes_above_size_from_init w c ops = true)
    (h : run_from_init w c ops = .ret (w1, b1)) :
    0 ≤ b1.size ∧ b1.size ≤ b1.capacity := by
  refine ⟨Nat.zero_le _, ?_⟩
  unfold run_from_init at h
  unfold inserts_at_size_from_init at hins
  unfold resizes_above_size_from_init at hres
  cases hi : buff_init w c with
  | undefined => rw [hi] at h; cases h
  | exit st w2 b2 => rw [hi] at h; cases h
  | ret r =>
    obtain ⟨w0, b0⟩ := r
    rw [hi] at h hins hres
    have h0 : b0.size ≤ b0.capacity := by
      unfold buff_init at hi
      split at hi
      · cases hi
      · simp only [Outcome.ret.injEq, Prod.mk.injEq] at hi
        obtain ⟨-, rfl⟩ := hi
        exact Nat.zero_le _
    exact run_keeps_le ops w0 b0 w1 b1 h0 hins hres h

theorem size_le_capacity_reachable_witness :
    run_from_init World.plenty 0
        [.append_byte 1, .append [2, 3] 2, .insert [4] 1 3, .resize 9, .resize 5]
      = .ret (World.plenty, ⟨4, 5, .block [1, 2, 3, 4, 0xAA]⟩)
    ∧ inserts_at_size_from_init World.plenty 0
        [.append_byte 1, .append [2, 3] 2, .insert [4] 1 3, .resize 9, .resize 5] = true
    ∧ resizes_above_size_from_init World.plenty 0
        [.append_byte 1, .append [2, 3] 2, .insert [4] 1 3, .resize 9, .resize 5] = true
    ∧ (0 ≤ 4 ∧ 4 ≤ 5) :=
  ⟨rfl, rfl, rfl,
    size_le_capacity_reachable World.plenty 0
      [.append_byte 1, .append [2, 3] 2, .insert [4] 1 3, .resize 9, .resize 5]
      World.plenty ⟨4, 5, .block [1, 2, 3, 4, 0xAA]⟩ rfl rfl rfl⟩

/-! ## Dump -/

/-- With a successful allocation, `print` on the standard output appends the
text to it. -/
theorem print_stdout (w : World) (text : List Char) (hw : w.malloc_always_ok) :
    ∃ w1, print w STDOUT_FILENO text = some w1 ∧ w1.malloc_always_ok
      ∧ w1.stdout = w.stdout ++ text ∧ w1.stderr = w.stderr := by
  obtain ⟨g, hg⟩ := Option.isSome_iff_exists.mp (hw 0)
  have ht : (text ++ ['\x00']).take (text.length + 1 - 1) = text := by
    simp
  refine ⟨write w.next STDOUT_FILENO text, ?_, malloc_always_ok_next w hw, rfl, rfl⟩
  simp only [print, malloc, hg, ht]

/-- With a successful allocation, `print` on the standard error appends the
text to it. -/
theorem print_stderr (w : World) (text : List Char) (hw : w.malloc_always_ok) :
    ∃ w1, print w STDERR_FILENO text = some w1 ∧ w1.malloc_always_ok
      ∧ w1.stdout = w.stdout ∧ w1.stderr = w.stderr ++ text := by
  obtain ⟨g, hg⟩ := Option.isSome_iff_exists.mp (hw 0)
  have ht : (text ++ ['\x00']).take (text.length + 1 - 1) = text := by
    simp
  refine ⟨write w.next STDERR_FILENO text, ?_, malloc_always_ok_next w hw, rfl, rfl⟩
  simp only [print, malloc, hg, ht]

/-- With a successful allocation, `println` on the standard output appends
the message, a newline and a NUL byte. -/
theorem println_stdout (w : World) (msg : List Char) (hw : w.malloc_always_ok) :
    ∃ w1, println w STDOUT_FILENO msg = some w1 ∧ w1.malloc_always_ok
      ∧ w1.stdout = w.stdout ++ (msg ++ ['\n', '\x00']) ∧ w1.stderr = w.stderr := by
  obtain ⟨g, hg⟩ := Option.isSome_iff_exists.mp (hw 0)
  have ht : (msg ++ ['\n'] ++ ['\x00']).take ((msg ++ ['\n']).length + 1)
      = msg ++ ['\n', '\x00'] := by
    simp
  refine ⟨write w.next STDOUT_FILENO (msg ++ ['\n', '\x00']), ?_,
    malloc_always_ok_next w hw, rfl, rfl⟩
  simp only [println, malloc, hg, ht]

theorem dump_text_cons (x : byte) (xs : List byte) :
    dump_text (x :: xs) = chunk_text x ++ dump_text xs := by
  simp [dump_text]

theorem dump_bits_ok (chunk : byte) (n : Nat) :
    ∀ w : World, w.malloc_always_ok →
      ∃ w1, dump_bits w chunk n = some w1 ∧ w1.malloc_always_ok
        ∧ w1.stdout = w.stdout ++ bits_text chunk n ∧ w1.stderr = w.stderr := by
  induction n with
  | zero => intro w hw; exact ⟨w, rfl, hw, by simp [bits_text], rfl⟩
  | succ b ih =>
    intro w hw
    have hc : (if chunk.val &&& (1 <<< b) ≠ 0 then ['1'] else ['0'])
        = [if chunk.val &&& (1 <<< b) ≠ 0 then '1' else '0'] := by
      split <;> rfl
    obtain ⟨w1, h1, hw1, ho1, he1⟩ :=
      print_stdout w (if chunk.val &&& (1 <<< b) ≠ 0 then ['1'] else ['0']) hw
    obtain ⟨w2, h2, hw2, ho2, he2⟩ := ih w1 hw1
    refine ⟨w2, ?_, hw2, ?_, ?_⟩
    · simp only [dump_bits, h1, h2]
    · rw [ho2, ho1, hc]
      simp [bits_text]
    · rw [he2, he1]

theorem dump_chunk_ok (chunk : byte) (w : World) (hw : w.malloc_always_ok) :
    ∃ w1, dump_chunk w chunk = some w1 ∧ w1.malloc_always_ok
      ∧ w1.stdout = w.stdout ++ chunk_text chunk ∧ w1.stderr = w.stderr := by
  obtain ⟨w1, h1, hw1, ho1, he1⟩ := dump_bits_ok chunk 8 w hw
  obtain ⟨w2, h2, hw2, ho2, he2⟩ := print_stdout w1 " ".data hw1
  refine ⟨w2, ?_, hw2, ?_, ?_⟩
  · simp only [dump_chunk, h1, h2]
  · rw [ho2, ho1]
    simp [chunk_text]
  · rw [he2, he1]

theorem dump_forward_ok (body : ptr) (todo : Nat) :
    ∀ (i : Nat) (w : World), i + todo ≤ body.bytes.length → w.malloc_always_ok →
      ∃ w1, dump_forward w body i todo = some w1 ∧ w1.malloc_always_ok
        ∧ w1.stdout = w.stdout ++ dump_text ((body.bytes.drop i).take todo)
        ∧ w1.stderr = w.stderr := by
  induction todo with
  | zero => intro i w _ hw; exact ⟨w, rfl, hw, by simp [dump_text], rfl⟩
  | succ n ih =>
    intro i w hi hw
    have hlt : i < body.bytes.length := by omega
    obtain ⟨w1, h1, hw1, ho1, he1⟩ := dump_chunk_ok body.bytes[i] w hw
    obtain ⟨w2, h2, hw2, ho2, he2⟩ := ih (i + 1) w1 (by omega) hw1
    refine ⟨w2, ?_, hw2, ?_, ?_⟩
    · simp only [dump_forward, List.getElem?_eq_getElem hlt, h1, h2]
    · have hd : (body.bytes.drop i).take (n + 1)
          = body.bytes[i] :: (body.bytes.drop (i + 1)).take n := by
        rw [List.drop_eq_getElem_cons hlt, List.take_succ_cons]
      rw [ho2, ho1, hd, dump_text_cons, List.append_assoc]
    · rw [he2, he1]

theorem dump_backward_ok (body : ptr) (n : Nat) :
    ∀ w : World, n ≤ body.bytes.length → w.malloc_always_ok →
      ∃ w1, dump_backward w body n = some w1 ∧ w1.malloc_always_ok
        ∧ w1.stdout = w.stdout ++ dump_text (body.bytes.take n).reverse
        ∧ w1.stderr = w.stderr := by
  induction n with
  | zero => intro w _ hw; exact ⟨w, rfl, hw, by simp [dump_text], rfl⟩
  | succ i ih =>
    intro w hi hw
    have hlt : i < body.bytes.length := by omega
    obtain ⟨w1, h1, hw1, ho1, he1⟩ := dump_chunk_ok body.bytes[i] w hw
    obtain ⟨w2, h2, hw2, ho2, he2⟩ := ih w1 (by omega) hw1
    refine ⟨w2, ?_, hw2, ?_, ?_⟩
    · simp only [dump_backward, List.getElem?_eq_getElem hlt, h1, h2]
    · have ht : (body.bytes.take (i + 1)).reverse
          = body.bytes[i] :: (body.bytes.take i).reverse := by
        rw [List.take_succ, List.getElem?_eq_getElem hlt]
        simp
      rw [ho2, ho1, ht, dump_text_cons, List.append_assoc]
    · rw [he2, he1]

/-- The order in which `buff_dump` takes the first `n` bytes of the body. -/
theorem buff_dump_ok (w : World) (buff : Buffer) (numbytes endianess : Int)
    (hnum : numbytes ≤ (buff.body.bytes.length : Int))
    (hmin : endianess = LITTLE_ENDIAN ∨ -(2 ^ 31) < numbytes)
    (hw : w.malloc_always_ok) :
    ∃ w1, buff_dump w buff numbytes endianess = .ret (w1, buff) ∧ w1.malloc_always_ok
      ∧ w1.stdout = w.stdout
          ++ dump_text (if endianess = LITTLE_ENDIAN then buff.body.bytes.take numbytes.toNat
                        else (buff.body.bytes.take numbytes.toNat).reverse)
          ++ ['\n', '\x00']
      ∧ w1.stderr = w.stderr := by
  have hn : numbytes.toNat ≤ buff.body.bytes.length := by omega
  by_cases he : endianess = LITTLE_ENDIAN
  · obtain ⟨w1, h1, hw1, ho1, he1⟩ := dump_forward_ok buff.body numbytes.toNat 0 w (by omega) hw
    obtain ⟨w2, h2, hw2, ho2, he2⟩ := println_stdout w1 [] hw1
    refine ⟨w2, ?_, hw2, ?_, ?_⟩
    · simp only [buff_dump, he, if_true, h1, h2]
    · rw [ho2, ho1]
      simp [he]
    · rw [he2, he1]
  · obtain ⟨w1, h1, hw1, ho1, he1⟩ := dump_backward_ok buff.body numbytes.toNat w hn hw
    obtain ⟨w2, h2, hw2, ho2, he2⟩ := println_stdout w1 [] hw1
    have hov : ¬ numbytes - 1 < -(2 ^ 31) := by
      rcases hmin with h | h
      · exact absurd h he
      · omega
    refine ⟨w2, ?_, hw2, ?_, ?_⟩
    · simp only [buff_dump, he, if_false, hov, h1, h2]
    · rw [ho2, ho1]
      simp [he]
    · rw [he2, he1]

/-- A dump that returns hands the buffer back as it was. -/
theorem buff_dump_ret (w : World) (buff : Buffer) (numbytes endianess : Int)
    (w1 : World) (b1 : Buffer) (h : buff_dump w buff numbytes endianess = .ret (w1, b1)) :
    b1 = buff := by
  unfold buff_dump at h
  split at h
  · split at h
    · cases h
    · split at h
      · cases h
      · simp only [Outcome.ret.injEq, Prod.mk.injEq] at h
        exact h.2.symm
  · split at h
    · cases h
    · split at h
      · cases h
      · split at h
        · cases h
        · simp only [Outcome.ret.injEq, Prod.mk.injEq] at h
          exact h.2.symm

/-- C13 (the code departs from the claim): the bit groups are as the claim
says, but the newline is not the last byte written.  `println` writes the
`len` bytes of its block, the terminating NUL included, so the dump of
`[0x0F, 0xFF]` ends in a newline followed by a NUL byte, in both modes. -/
theorem buff_dump_writes_nul_after_newline :
    (∃ w1, buff_dump World.plenty ⟨2, 2, .block [0x0F, 0xFF]⟩ 2 LITTLE_ENDIAN
        = .ret (w1, ⟨2, 2, .block [0x0F, 0xFF]⟩)
      ∧ w1.stdout = "00001111 11111111 \n\x00".data
      ∧ w1.stdout ≠ "00001111 11111111 \n".data)
    ∧ (∃ w1, buff_dump World.plenty ⟨2, 2, .block [0x0F, 0xFF]⟩ 2 BIG_ENDIAN
        = .ret (w1, ⟨2, 2, .block [0x0F, 0xFF]⟩)
      ∧ w1.stdout = "11111111 00001111 \n\x00".data
      ∧ w1.stdout ≠ "11111111 00001111 \n".data) :=
  ⟨⟨_, rfl, rfl, by decide⟩, ⟨_, rfl, rfl, by decide⟩⟩

/-- C14: `buff_dump` has no effect on the buffer.  On a buffer whose body has
`capacity` bytes, with `numbytes ≤ capacity` (and, in big-endian mode,
`numbytes - 1` representable in `int`) and every allocation of `print`
satisfied, the call returns and hands back the very same record: size,
capacity and body bytes; no call of `buff_dump` at all returns a different
one.  `buff_size`, `buff_capacity` and `buff_body` are the three fields. -/
theorem read_only_operations (w : World) (buff : Buffer) (numbytes endianess : Int)
    (hb : buff.body.bytes.length = buff.capacity)
    (hnum : numbytes ≤ (buff.capacity : Int))
    (hmin : endianess = LITTLE_ENDIAN ∨ -(2 ^ 31) < numbytes)
    (hw : w.malloc_always_ok) :
    (∃ w1, buff_dump w buff numbytes endianess = .ret (w1, buff))
    ∧ (∀ (w0 : World) (n e : Int) (w1 : World) (b1 : Buffer),
        buff_dump w0 buff n e = .ret (w1, b1) →
          b1.size = buff.size ∧ b1.capacity = buff.capacity ∧ b1.body = buff.body)
    ∧ buff_size buff = buff.size
    ∧ buff_capacity buff = buff.capacity
    ∧ buff_body buff = buff.body := by
  obtain ⟨w1, h, -⟩ := buff_dump_ok w buff numbytes endianess (by rw [hb]; exact hnum) hmin hw
  refine ⟨⟨w1, h⟩, ?_, rfl, rfl, rfl⟩
  intro w0 n e w1 b1 h1
  rw [buff_dump_ret w0 buff n e w1 b1 h1]
  exact ⟨rfl, rfl, rfl⟩

theorem read_only_operations_witness :
    (∃ w1, buff_dump World.plenty ⟨1, 2, .block [0x0F, 0xFF]⟩ 2 BIG_ENDIAN
        = .ret (w1, ⟨1, 2, .block [0x0F, 0xFF]⟩))
    ∧ (∀ (w0 : World) (n e : Int) (w1 : World) (b1 : Buffer),
        buff_dump w0 ⟨1, 2, .block [0x0F, 0xFF]⟩ n e = .ret (w1, b1) →
          b1.size = 1 ∧ b1.capacity = 2 ∧ b1.body = .block [0x0F, 0xFF])
    ∧ buff_size ⟨1, 2, .block [0x0F, 0xFF]⟩ = 1
    ∧ buff_capacity ⟨1, 2, .block [0x0F, 0xFF]⟩ = 2
    ∧ buff_body ⟨1, 2, .block [0x0F, 0xFF]⟩ = .block [0x0F, 0xFF] :=
  read_only_operations World.plenty ⟨1, 2, .block [0x0F, 0xFF]⟩ 2 BIG_ENDIAN
    (by decide) (by decide) (by decide) (fun _ => rfl)

/-! ## Initialisation followed by appends -/

/-- With both allocations satisfied, `buff_init(c)` for `0 ≤ c` returns an
empty buffer whose body has `c` bytes. -/
theorem buff_init_ok (w : World) (c : Int) (hc0 : 0 ≤ c) (hc1 : c < 2 ^ 31)
    (hw : w.malloc_always_ok) :
    ∃ w0 b0, buff_init w c = .ret (w0, b0) ∧ w0.malloc_always_ok
      ∧ b0.size = 0 ∧ b0.capacity = c.toNat ∧ b0.body.bytes.length = c.toNat := by
  obtain ⟨g0, hg0⟩ := Option.isSome_iff_exists.mp (hw 0)
  obtain ⟨g1, hg1⟩ := Option.isSome_iff_exists.mp (hw 1)
  have hg1n : w.next.heap 0 = some g1 := hg1
  have hconv : int_to_size_t c = c.toNat := by
    unfold int_to_size_t
    rw [Int.emod_eq_of_lt hc0 (by norm_num [SIZE_MOD]; omega)]
  refine ⟨w.next.next, { size := 0, capacity := c.toNat, body := .block (fresh g1 c.toNat) },
    ?_, malloc_always_ok_next _ (malloc_always_ok_next _ hw), rfl, rfl, ?_⟩
  · simp only [buff_init, sec_malloc, malloc, hg0, hg1n, hconv]
  · simp [bytes_block, length_fresh]

theorem append_byte_times_ok (x : byte) (n : Nat) :
    ∀ (w : World) (buff : Buffer), buff.size ≤ buff.capacity →
      buff.body.bytes.length = buff.capacity → w.malloc_always_ok →
      buff.size + n < SIZE_MOD →
      ∃ w1 b1, append_byte_times w buff x n = .ret (w1, b1)
        ∧ b1.size = buff.size + n
        ∧ b1.capacity = max buff.capacity (buff.size + n)
        ∧ b1.body.bytes.take (buff.size + n)
            = buff.body.bytes.take buff.size ++ List.replicate n x := by
  induction n with
  | zero =>
    intro w buff hsz hb _ _
    exact ⟨w, buff, rfl, rfl, by simp; omega, by simp⟩
  | succ n ih =>
    intro w buff hsz hb hw hfit
    obtain ⟨w1, b1, h, hw1, h1, h2, h3, h4⟩ :=
      buff_append_ok w buff [x] 1 hsz hb (by simp) (by omega)
        (fun _ => malloc_ok_of_always w hw)
    have hw1ok : w1.malloc_always_ok := by
      rcases hw1 with rfl | rfl
      · exact hw
      · exact malloc_always_ok_next w hw
    obtain ⟨w2, b2, g, g1, g2, g4⟩ := ih w1 b1 (by omega) h3 hw1ok (by omega)
    refine ⟨w2, b2, ?_, by omega, by omega, ?_⟩
    · simp only [append_byte_times, buff_append_byte_unfold, h, g]
    · have e : buff.size + (n + 1) = b1.size + n := by omega
      rw [e, g4, h1, h4]
      simp [List.replicate_succ]

/-- C15: for `0 ≤ c`, `buff_init(c)` returns a buffer of size 0 and capacity
`c`, and `n` calls of `buff_append_byte(b)` after it return a buffer of size
`n` and capacity `max c n` whose first `n` bytes are all `b` (every
allocation being satisfied). -/
theorem init_then_append_bytes (w : World) (c : Int) (x : byte) (n : Nat)
    (hc0 : 0 ≤ c) (hc1 : c < 2 ^ 31) (hn : n < SIZE_MOD) (hw : w.malloc_always_ok) :
    ∃ w0 b0, buff_init w c = .ret (w0, b0) ∧ b0.size = 0 ∧ b0.capacity = c.toNat
      ∧ ∃ w1 b1, append_byte_times w0 b0 x n = .ret (w1, b1)
          ∧ b1.size = n
          ∧ b1.capacity = max c.toNat n
          ∧ b1.body.bytes.take n = List.replicate n x := by
  obtain ⟨w0, b0, h, hw0, h1, h2, h3⟩ := buff_init_ok w c hc0 hc1 hw
  obtain ⟨w1, b1, g, g1, g2, g3⟩ :=
    append_byte_times_ok x n w0 b0 (by omega) (by omega) hw0 (by omega)
  refine ⟨w0, b0, h, h1, h2, w1, b1, g, by omega, ?_, ?_⟩
  · rw [g2, h1, h2, Nat.zero_add]
  · rw [h1, Nat.zero_add, List.take_zero, List.nil_append] at g3
    exact g3

theorem init_then_append_bytes_witness :
    (∃ w0 b0, buff_init World.plenty 0 = .ret (w0, b0) ∧ b0.size = 0 ∧ b0.capacity = 0
      ∧ ∃ w1 b1, append_byte_times w0 b0 0xFF 10 = .ret (w1, b1)
          ∧ b1.size = 10
          ∧ b1.capacity = 10
          ∧ b1.body.bytes.take 10 = List.replicate 10 0xFF)
    ∧ append_byte_times World.plenty ⟨0, 0, .block []⟩ 0xFF 10
        = .ret (World.plenty, ⟨10, 10, .block (List.replicate 10 0xFF)⟩)
    ∧ ∃ w2, buff_dump World.plenty ⟨10, 10, .block (List.replicate 10 0xFF)⟩ 3 LITTLE_ENDIAN
        = .ret (w2, ⟨10, 10, .block (List.replicate 10 0xFF)⟩)
      ∧ w2.stdout = "11111111 11111111 11111111 \n\x00".data :=
  ⟨init_then_append_bytes World.plenty 0 0xFF 10 (by decide) (by decide) (by decide)
      (fun _ => rfl),
    rfl, _, rfl, rfl⟩

/-! ## Allocation failure -/

/-- C16 (the code departs from the claim): `sec_malloc` hands the `NULL` of a
failed `malloc` to its caller.  With the allocator exhausted, `buff_resize`
of an empty buffer to 5 bytes returns a buffer of capacity 5 whose body is
`NULL`, and `buff_append` on a full one-byte buffer copies the old byte
through the `NULL` it got, which is undefined; with one allocation left,
`buff_init(4)` returns a buffer of capacity 4 whose body is `NULL`. -/
theorem sec_malloc_returns_null :
    (sec_malloc World.exhausted 4).2 = .NULL
    ∧ (∃ w1, buff_resize World.exhausted ⟨0, 0, .block []⟩ 5 = .ret (w1, ⟨0, 5, .NULL⟩))
    ∧ buff_append World.exhausted ⟨1, 1, .block [7]⟩ [8] 1 = .undefined
    ∧ (∃ w1, buff_init
          { heap := fun k => if k = 0 then some (fun _ => 0) else none,
            stdout := [], stderr := [] } 4
        = .ret (w1, ⟨0, 4, .NULL⟩)) :=
  ⟨rfl, ⟨_, rfl⟩, rfl, ⟨_, rfl⟩⟩

/-! ## Size discipline -/

/-- The statement `growth_step` is the first statement of `buff_insert`. -/
theorem buff_insert_unfold (w : World) (buff : Buffer) (add : List byte) (size index : Nat) :
    buff_insert w buff add size index =
      match growth_step w buff (index + size) with
      | .ret (w1, b1) =>
        (match memmove b1.body index add size with
          | none => .undefined
          | some p =>
            let b2 : Buffer := { b1 with body := p }
            let d : Int := to_ssize_t index - to_ssize_t b2.size
            if d < -(2 ^ 63) ∨ 2 ^ 63 ≤ d then .undefined
            else
              let diff : Int := to_int d
              if diff > 0 then
                match print w1 STDERR_FILENO "Error: buffer insert gap\n".data with
                | none => .undefined
                | some w2 => .exit EXIT_FAILURE w2 b2
              else if diff < 0 then
                match print w1 STDERR_FILENO "Error: buffer insert overlap\n".data with
                | none => .undefined
                | some w2 => .exit EXIT_FAILURE w2 b2
              else .ret (w1, { b2 with size := (b2.size + size) % SIZE_MOD }))
      | o => o := rfl

/-- An append that returns has advanced `size` by the payload length, in
`size_t` arithmetic. -/
theorem buff_append_ret_size (w : World) (buff : Buffer) (add : List byte) (size : Nat)
    (w1 : World) (b1 : Buffer) (h : buff_append w buff add size = .ret (w1, b1)) :
    b1.size = (buff.size + size) % SIZE_MOD := by
  rw [buff_append_unfold] at h
  cases hg : growth_step w buff (buff.size + size) with
  | undefined => rw [hg] at h; cases h
  | exit st w2 b2 => rw [hg] at h; cases h
  | ret r =>
    obtain ⟨w2, b2⟩ := r
    rw [hg] at h
    obtain ⟨h1, -, -⟩ := growth_step_ret w buff _ w2 b2 hg
    cases hm : memmove b2.body b2.size add size with
    | none => simp [hm] at h
    | some p =>
      simp only [hm, Outcome.ret.injEq, Prod.mk.injEq] at h
      obtain ⟨-, rfl⟩ := h
      show (b2.size + size) % SIZE_MOD = _
      rw [h1]

/-- An insert that returns, whatever its index, has advanced `size` by the
payload length, in `size_t` arithmetic. -/
theorem buff_insert_ret_size (w : World) (buff : Buffer) (add : List byte) (size index : Nat)
    (w1 : World) (b1 : Buffer) (h : buff_insert w buff add size index = .ret (w1, b1)) :
    b1.size = (buff.size + size) % SIZE_MOD := by
  rw [buff_insert_unfold] at h
  cases hg : growth_step w buff (index + size) with
  | undefined => rw [hg] at h; cases h
  | exit st w2 b2 => rw [hg] at h; cases h
  | ret r =>
    obtain ⟨w2, b2⟩ := r
    rw [hg] at h
    obtain ⟨h1, -, -⟩ := growth_step_ret w buff _ w2 b2 hg
    cases hm : memmove b2.body index add size with
    | none => simp [hm] at h
    | some p =>
      simp only [hm] at h
      split at h
      · cases h
      · split at h
        · split at h <;> cases h
        · split at h
          · split at h <;> cases h
          · simp only [Outcome.ret.injEq, Prod.mk.injEq] at h
            obtain ⟨-, rfl⟩ := h
            show (b2.size + size) % SIZE_MOD = _
            rw [h1]

/-- A clear that returns has set `size` to 0. -/
theorem buff_clear_ret_size (w : World) (buff : Buffer) (w1 : World) (b1 : Buffer)
    (h : buff_clear w buff = .ret (w1, b1)) : b1.size = 0 := by
  simp only [buff_clear] at h
  cases hm : memset buff.body 0 buff.size with
  | none => simp [hm] at h
  | some p =>
    simp only [hm, Outcome.ret.injEq, Prod.mk.injEq] at h
    obtain ⟨-, rfl⟩ := h
    rfl

/-- Whatever the buffer and the call, a mutating call that returns leaves the
size the discipline announces, the sum fitting `size_t`. -/
theorem step_ret_size (w : World) (buff : Buffer) (op : Op) (w1 : World) (b1 : Buffer)
    (hfit : buff.size + op.payload < SIZE_MOD) (h : step w buff op = .ret (w1, b1)) :
    b1.size = op.size_after buff := by
  cases op with
  | append add size =>
    rw [buff_append_ret_size w buff add size w1 b1 h]
    exact Nat.mod_eq_of_lt hfit
  | append_byte x =>
    rw [buff_append_ret_size w buff [x] 1 w1 b1 (by rw [← buff_append_byte_unfold]; exact h)]
    exact Nat.mod_eq_of_lt hfit
  | insert add size index =>
    rw [buff_insert_ret_size w buff add size index w1 b1 h]
    exact Nat.mod_eq_of_lt hfit
  | clear => exact buff_clear_ret_size w buff w1 b1 h
  | resize n => exact (buff_resize_ret w buff n w1 b1 h).1

/-- On a well-formed buffer, a call that respects its contract returns, every
allocation being satisfied. -/
theorem step_returns (w : World) (buff : Buffer) (op : Op)
    (hsz : buff.size ≤ buff.capacity) (hb : buff.body.bytes.length = buff.capacity)
    (hw : w.malloc_always_ok) (hfit : buff.size + op.payload < SIZE_MOD)
    (hop : op.well_called buff) :
    ∃ w1 b1, step w buff op = .ret (w1, b1) := by
  cases op with
  | append add size =>
    have hl : add.length = size := hop
    obtain ⟨w1, b1, h, -⟩ := buff_append_ok w buff add size hsz hb (by omega) hfit
      (fun _ => malloc_ok_of_always w hw)
    exact ⟨w1, b1, h⟩
  | append_byte x =>
    obtain ⟨w1, b1, h, -⟩ := buff_append_ok w buff [x] 1 hsz hb (by simp) hfit
      (fun _ => malloc_ok_of_always w hw)
    exact ⟨w1, b1, by rw [step, buff_append_byte_unfold]; exact h⟩
  | insert add size index =>
    obtain ⟨hl, hi⟩ : add.length = size ∧ index = buff.size := hop
    subst hi
    obtain ⟨w1, b1, h, -⟩ := buff_append_ok w buff add size hsz hb (by omega) hfit
      (fun _ => malloc_ok_of_always w hw)
    exact ⟨w1, b1, by rw [step, buff_insert_size_eq_append]; exact h⟩
  | clear =>
    have hms := memset_in_bounds buff.body 0 buff.size (by omega)
    exact ⟨w, { buff with body := buff.body.store 0 (List.replicate buff.size 0), size := 0 },
      by simp only [step, buff_clear, hms]⟩
  | resize n =>
    have hn : buff.capacity ≤ n := hop
    obtain ⟨g, hg⟩ := Option.isSome_iff_exists.mp (hw 0)
    exact ⟨_, _, buff_resize_grow w buff n g hb hn hg⟩

/-- C17: a mutating call leaves the size unchanged (`buff_resize`), larger by
exactly the payload length (`buff_append`, `buff_append_byte`, `buff_insert`)
or 0 (`buff_clear`), and never smaller unless 0.  On a well-formed buffer
and with arguments that respect the contract the call does return; and
whatever the buffer and the arguments, a call that returns has done one of
these three things.  `buff_dump` and the accessors leave the size as it is. -/
theorem size_discipline (w : World) (buff : Buffer) (op : Op)
    (hsz : buff.size ≤ buff.capacity) (hb : buff.body.bytes.length = buff.capacity)
    (hw : w.malloc_always_ok) (hfit : buff.size + op.payload < SIZE_MOD)
    (hop : op.well_called buff) :
    (∃ w1 b1, step w buff op = .ret (w1, b1) ∧ b1.size = op.size_after buff
        ∧ (b1.size = 0 ∨ buff.size ≤ b1.size))
    ∧ (∀ (w0 : World) (b : Buffer) (o : Op) (w1 : World) (b1 : Buffer),
        b.size + o.payload < SIZE_MOD → step w0 b o = .ret (w1, b1) →
          b1.size = o.size_after b ∧ (b1.size = 0 ∨ b.size ≤ b1.size))
    ∧ (∀ (w0 : World) (b : Buffer) (n e : Int) (w1 : World) (b1 : Buffer),
        buff_dump w0 b n e = .ret (w1, b1) → b1.size = b.size)
    ∧ buff_size buff = buff.size := by
  have key : ∀ (w0 : World) (b : Buffer) (o : Op) (w1 : World) (b1 : Buffer),
      b.size + o.payload < SIZE_MOD → step w0 b o = .ret (w1, b1) →
        b1.size = o.size_after b ∧ (b1.size = 0 ∨ b.size ≤ b1.size) := by
    intro w0 b o w1 b1 hf h
    have e := step_ret_size w0 b o w1 b1 hf h
    refine ⟨e, ?_⟩
    rw [e]
    cases o <;> simp [Op.size_after]
  obtain ⟨w1, b1, h⟩ := step_returns w buff op hsz hb hw hfit hop
  obtain ⟨e1, e2⟩ := key w buff op w1 b1 hfit h
  refine ⟨⟨w1, b1, h, e1, e2⟩, key, ?_, rfl⟩
  intro w0 b n e w1 b1 h1
  rw [buff_dump_ret w0 b n e w1 b1 h1]

theorem size_discipline_witness :
    (∃ w1 b1, step World.plenty ⟨2, 2, .block [1, 2]⟩ (.insert [9] 1 2) = .ret (w1, b1)
        ∧ b1.size = 3 ∧ (b1.size = 0 ∨ 2 ≤ b1.size))
    ∧ (∀ (w0 : World) (b : Buffer) (o : Op) (w1 : World) (b1 : Buffer),
        b.size + o.payload < SIZE_MOD → step w0 b o = .ret (w1, b1) →
          b1.size = o.size_after b ∧ (b1.size = 0 ∨ b.size ≤ b1.size))
    ∧ (∀ (w0 : World) (b : Buffer) (n e : Int) (w1 : World) (b1 : Buffer),
        buff_dump w0 b n e = .ret (w1, b1) → b1.size = b.size)
    ∧ buff_size ⟨2, 2, .block [1, 2]⟩ = 2 :=
  size_discipline World.plenty ⟨2, 2, .block [1, 2]⟩ (.insert [9] 1 2)
    (by decide) (by decide) (fun _ => rfl) (by decide) ⟨rfl, rfl⟩

/-! ## The one-byte append -/

/-- C18: `buff_append_byte(buf, b)` is `buff_append(buf, [b], 1)`: for every
environment, buffer and byte the two calls end in the same way, and on a
well-formed buffer both return the same record, one byte longer, with `b` at
the old end. -/
theorem buff_append_byte_is_append (w : World) (buff : Buffer) (x : byte)
    (hsz : buff.size ≤ buff.capacity) (hb : buff.body.bytes.length = buff.capacity)
    (hfit : buff.size + 1 < SIZE_MOD)
    (hm : buff.capacity < buff.size + 1 → w.malloc_ok) :
    (∀ (w0 : World) (b : Buffer) (y : byte),
        buff_append_byte w0 b y = buff_append w0 b [y] 1)
    ∧ ∃ w1 b1, buff_append_byte w buff x = .ret (w1, b1)
        ∧ buff_append w buff [x] 1 = .ret (w1, b1)
        ∧ b1.size = buff.size + 1
        ∧ b1.body.bytes.take (buff.size + 1) = buff.body.bytes.take buff.size ++ [x] := by
  obtain ⟨w1, b1, h, -, h1, -, -, h4⟩ :=
    buff_append_ok w buff [x] 1 hsz hb (by simp) hfit hm
  exact ⟨fun _ _ _ => rfl, w1, b1, h, h, h1, by simpa using h4⟩

theorem buff_append_byte_is_append_witness :
    (∀ (w0 : World) (b : Buffer) (y : byte),
        buff_append_byte w0 b y = buff_append w0 b [y] 1)
    ∧ ∃ w1 b1, buff_append_byte World.plenty ⟨2, 2, .block [1, 2]⟩ 9 = .ret (w1, b1)
        ∧ buff_append World.plenty ⟨2, 2, .block [1, 2]⟩ [9] 1 = .ret (w1, b1)
        ∧ b1.size = 3
        ∧ b1.body.bytes.take 3 = [1, 2, 9] :=
  buff_append_byte_is_append World.plenty ⟨2, 2, .block [1, 2]⟩ 9
    (by decide) (by decide) (by decide) (by decide)

/-! ## The growth step and the index test of `buff_insert` -/

/-- On a body of `capacity` bytes, the growth step returns a body that
covers the requested end, the allocation being satisfied when one is made. -/
theorem growth_step_ok (w : World) (buff : Buffer) (upto : Nat)
    (hb : buff.body.bytes.length = buff.capacity) (hfit : upto < SIZE_MOD)
    (hm : buff.capacity < upto → w.malloc_ok) :
    ∃ w1 b1, growth_step w buff upto = .ret (w1, b1)
      ∧ (w1 = w ∨ w1 = w.next)
      ∧ b1.size = buff.size
      ∧ b1.capacity = max buff.capacity upto
      ∧ b1.body.bytes.length = b1.capacity
      ∧ upto ≤ b1.body.bytes.length := by
  have hmod : upto % SIZE_MOD = upto := Nat.mod_eq_of_lt hfit
  by_cases hc : buff.capacity < upto
  · obtain ⟨g, hg⟩ := Option.isSome_iff_exists.mp (hm hc)
    have hr := buff_resize_grow w buff upto g hb (by omega) hg
    have hN : (ptr.block (buff.body.bytes ++ (fresh g upto).drop buff.capacity)).bytes.length
        = upto := by
      simp [bytes_block, length_fresh, hb]
      omega
    refine ⟨w.next,
      { buff with body := .block (buff.body.bytes ++ (fresh g upto).drop buff.capacity),
                  capacity := upto }, ?_, Or.inr rfl, rfl, ?_, ?_, ?_⟩
    · simp only [growth_step, hmod, gt_iff_lt, hc, if_true, hr]
    · show upto = max buff.capacity upto
      omega
    · exact hN
    · exact Nat.le_of_eq hN.symm
  · refine ⟨w, buff, ?_, Or.inl rfl, rfl, ?_, hb, by omega⟩
    · simp only [growth_step, hmod, gt_iff_lt, hc, if_false]
    · omega

theorem to_ssize_t_of_lt (n : Nat) (h : n < 2 ^ 63) : to_ssize_t n = (n : Int) := by
  have h1 : n % SIZE_MOD = n := Nat.mod_eq_of_lt (by simp only [SIZE_MOD]; omega)
  simp only [to_ssize_t, h1, h, if_true]

/-- The truncated difference is zero exactly when the two values agree on
their low 32 bits. -/
theorem to_int_sub_eq_zero_iff (a b : Nat) :
    to_int ((a : Int) - (b : Int)) = 0 ↔ a % 2 ^ 32 = b % 2 ^ 32 := by
  unfold to_int
  simp only [INT_MOD]
  push_cast
  split <;> omega

theorem drop_take_store (p : ptr) (off : Nat) (data : List byte)
    (h : off + data.length ≤ p.bytes.length) :
    ((p.store off data).bytes.drop off).take data.length = data := by
  rw [bytes_store p off data h, List.append_assoc]
  have hl : (p.bytes.take off).length = off := by
    simp
    omega
  rw [List.drop_left' hl, List.take_left' rfl]

/-- The two first statements of `buff_insert` succeed on a well-formed call,
and the rest of the function is the three-way test on the truncated
difference. -/
theorem buff_insert_outcome (w : World) (buff : Buffer) (add : List byte) (size index : Nat)
    (hsz : buff.size ≤ buff.capacity) (hb : buff.body.bytes.length = buff.capacity)
    (hlen : size ≤ add.length) (hcap : buff.capacity < 2 ^ 63) (hidx : index + size < 2 ^ 63)
    (hm : buff.capacity < index + size → w.malloc_ok) :
    ∃ w1 b2, (w1 = w ∨ w1 = w.next)
      ∧ b2.size = buff.size
      ∧ b2.capacity = max buff.capacity (index + size)
      ∧ b2.body.bytes.length = b2.capacity
      ∧ (b2.body.bytes.drop index).take size = add.take size
      ∧ buff_insert w buff add size index =
          if to_int ((index : Int) - (buff.size : Int)) > 0 then
            match print w1 STDERR_FILENO "Error: buffer insert gap\n".data with
            | none => .undefined
            | some w2 => .exit EXIT_FAILURE w2 b2
          else if to_int ((index : Int) - (buff.size : Int)) < 0 then
            match print w1 STDERR_FILENO "Error: buffer insert overlap\n".data with
            | none => .undefined
            | some w2 => .exit EXIT_FAILURE w2 b2
          else .ret (w1, { b2 with size := (b2.size + size) % SIZE_MOD }) := by
  obtain ⟨w1, b1, hg, hw1, h1, h2, h3, h4⟩ :=
    growth_step_ok w buff (index + size) hb (by simp only [SIZE_MOD]; omega) hm
  have hl : (add.take size).length = size := by simp [hlen]
  have hin : index + (add.take size).length ≤ b1.body.bytes.length := by omega
  have hmv := memmove_in_bounds b1.body index add size h4 hlen
  have hdt := drop_take_store b1.body index (add.take size) hin
  rw [hl] at hdt
  have e1 : to_ssize_t index = (index : Int) := to_ssize_t_of_lt index (by omega)
  have e2 : to_ssize_t b1.size = (buff.size : Int) := by
    rw [h1]
    exact to_ssize_t_of_lt buff.size (by omega)
  have hr : ¬ ((index : Int) - (buff.size : Int) < -(2 ^ 63)
      ∨ 2 ^ 63 ≤ (index : Int) - (buff.size : Int)) := by omega
  refine ⟨w1, { b1 with body := b1.body.store index (add.take size) }, hw1, h1, h2, ?_, hdt, ?_⟩
  · show (b1.body.store index (add.take size)).bytes.length = b1.capacity
    rw [length_store _ _ _ hin, h3]
  · rw [buff_insert_unfold, hg]
    simp only [hmv, e1, e2, hr, if_false]

/-- C19: `buff_insert` decides on the difference `index - size` truncated to
32 bits.  On a well-formed buffer, no object exceeding `2 ^ 63` bytes and
every allocation being satisfied: the call returns normally exactly when
`index` and `size` agree modulo `2 ^ 32`; it then has advanced `size` by the
payload length and holds the payload at offset `index`; it ends in
`exit(EXIT_FAILURE)` after the `gap` message when the truncated signed value
is positive and after the `overlap` message when it is negative. -/
theorem buff_insert_truncated_test (w : World) (buff : Buffer) (add : List byte)
    (size index : Nat)
    (hsz : buff.size ≤ buff.capacity) (hb : buff.body.bytes.length = buff.capacity)
    (hlen : add.length = size) (hcap : buff.capacity < 2 ^ 63) (hidx : index + size < 2 ^ 63)
    (hw : w.malloc_always_ok) :
    ((∃ w1 b1, buff_insert w buff add size index = .ret (w1, b1))
        ↔ index % 2 ^ 32 = buff.size % 2 ^ 32)
    ∧ (∀ w1 b1, buff_insert w buff add size index = .ret (w1, b1) →
        b1.size = buff.size + size ∧ (b1.body.bytes.drop index).take size = add)
    ∧ (0 < to_int ((index : Int) - (buff.size : Int)) →
        ∃ w1 b1, buff_insert w buff add size index = .exit EXIT_FAILURE w1 b1
          ∧ w1.stderr = w.stderr ++ "Error: buffer insert gap\n".data)
    ∧ (to_int ((index : Int) - (buff.size : Int)) < 0 →
        ∃ w1 b1, buff_insert w buff add size index = .exit EXIT_FAILURE w1 b1
          ∧ w1.stderr = w.stderr ++ "Error: buffer insert overlap\n".data) := by
  obtain ⟨w1, b2, hw1, hs, -, -, hdt, heq⟩ :=
    buff_insert_outcome w buff add size index hsz hb (by omega) hcap hidx
      (fun _ => malloc_ok_of_always w hw)
  have hw1ok : w1.malloc_always_ok := by
    rcases hw1 with rfl | rfl
    · exact hw
    · exact malloc_always_ok_next w hw
  have hw1err : w1.stderr = w.stderr := by
    rcases hw1 with rfl | rfl <;> rfl
  obtain ⟨wg, hg, -, -, hge⟩ := print_stderr w1 "Error: buffer insert gap\n".data hw1ok
  obtain ⟨wo, ho, -, -, hoe⟩ := print_stderr w1 "Error: buffer insert overlap\n".data hw1ok
  rw [hg, ho] at heq
  have hzero := to_int_sub_eq_zero_iff index buff.size
  have htake : add.take size = add := List.take_of_length_le (by omega)
  have hmod : (b2.size + size) % SIZE_MOD = buff.size + size := by
    rw [hs]
    exact Nat.mod_eq_of_lt (by simp only [SIZE_MOD]; omega)
  by_cases hpos : to_int ((index : Int) - (buff.size : Int)) > 0
  · rw [if_pos hpos] at heq
    refine ⟨⟨?_, ?_⟩, ?_, ?_, ?_⟩
    · rintro ⟨w3, b3, h3⟩
      rw [heq] at h3
      cases h3
    · intro h
      have := hzero.mpr h
      omega
    · intro w3 b3 h3
      rw [heq] at h3
      cases h3
    · intro _
      exact ⟨wg, b2, heq, by rw [hge, hw1err]⟩
    · intro h
      omega
  · rw [if_neg hpos] at heq
    by_cases hneg : to_int ((index : Int) - (buff.size : Int)) < 0
    · rw [if_pos hneg] at heq
      refine ⟨⟨?_, ?_⟩, ?_, ?_, ?_⟩
      · rintro ⟨w3, b3, h3⟩
        rw [heq] at h3
        cases h3
      · intro h
        have := hzero.mpr h
        omega
      · intro w3 b3 h3
        rw [heq] at h3
        cases h3
      · intro h
        omega
      · intro _
        exact ⟨wo, b2, heq, by rw [hoe, hw1err]⟩
    · rw [if_neg hneg] at heq
      have hz : to_int ((index : Int) - (buff.size : Int)) = 0 := by omega
      refine ⟨⟨fun _ => hzero.mp hz, fun _ => ⟨_, _, heq⟩⟩, ?_, ?_, ?_⟩
      · intro w3 b3 h3
        rw [heq] at h3
        simp only [Outcome.ret.injEq, Prod.mk.injEq] at h3
        obtain ⟨-, rfl⟩ := h3
        exact ⟨hmod, by rw [← htake]; exact hdt⟩
      · intro h
        omega
      · intro h
        omega

theorem buff_insert_truncated_test_witness :
    to_int (((2147483648 : Nat) : Int) - ((0 : Nat) : Int)) = -2147483648
    ∧ ((∃ w1 b1, buff_insert World.plenty ⟨0, 0, .NULL⟩ [0x61] 1 2147483648 = .ret (w1, b1))
        ↔ 2147483648 % 2 ^ 32 = 0 % 2 ^ 32)
    ∧ (∀ w1 b1, buff_insert World.plenty ⟨0, 0, .NULL⟩ [0x61] 1 2147483648 = .ret (w1, b1) →
        b1.size = 0 + 1 ∧ (b1.body.bytes.drop 2147483648).take 1 = [0x61])
    ∧ (0 < to_int (((2147483648 : Nat) : Int) - ((0 : Nat) : Int)) →
        ∃ w1 b1, buff_insert World.plenty ⟨0, 0, .NULL⟩ [0x61] 1 2147483648
            = .exit EXIT_FAILURE w1 b1
          ∧ w1.stderr = [] ++ "Error: buffer insert gap\n".data)
    ∧ (to_int (((2147483648 : Nat) : Int) - ((0 : Nat) : Int)) < 0 →
        ∃ w1 b1, buff_insert World.plenty ⟨0, 0, .NULL⟩ [0x61] 1 2147483648
            = .exit EXIT_FAILURE w1 b1
          ∧ w1.stderr = [] ++ "Error: buffer insert overlap\n".data) :=
  ⟨by decide,
    buff_insert_truncated_test World.plenty ⟨0, 0, .NULL⟩ [0x61] 1 2147483648
      (by decide) (by decide) (by decide) (by decide) (by decide) (fun _ => rfl)⟩

/-! ## Bounds of the writes -/

/-- C20: on a buffer whose body has `capacity` bytes, the allocation of the
growth step being satisfied and the ends fitting `size_t`, the range
`[size, size + len)` that `buff_append` writes (`len = 1` for
`buff_append_byte`) and the range `[index, index + len)` that `buff_insert`
writes lie inside the body as it is after the growth step, so `memmove`
does not take its out-of-bounds branch; and the copy of `sec_realloc` under
`buff_resize` stays inside the new block when `new_size ≥ capacity`. -/
theorem writes_stay_in_bounds (w : World) (buff : Buffer) (add : List byte)
    (size index : Nat) (x : byte) (new_size : Nat)
    (hsz : buff.size ≤ buff.capacity) (hb : buff.body.bytes.length = buff.capacity)
    (hlen : size ≤ add.length)
    (hfit : buff.size + size < SIZE_MOD) (hfit1 : buff.size + 1 < SIZE_MOD)
    (hfiti : index + size < SIZE_MOD)
    (hn : buff.capacity ≤ new_size) (hw : w.malloc_ok) :
    (∃ w1 b1, growth_step w buff (buff.size + size) = .ret (w1, b1)
        ∧ b1.size + size ≤ b1.body.bytes.length
        ∧ (memmove b1.body b1.size add size).isSome = true
        ∧ ∃ w2 b2, buff_append w buff add size = .ret (w2, b2))
    ∧ (∃ w1 b1, growth_step w buff (buff.size + 1) = .ret (w1, b1)
        ∧ b1.size + 1 ≤ b1.body.bytes.length
        ∧ (memmove b1.body b1.size [x] 1).isSome = true
        ∧ ∃ w2 b2, buff_append_byte w buff x = .ret (w2, b2))
    ∧ (∃ w1 b1, growth_step w buff (index + size) = .ret (w1, b1)
        ∧ index + size ≤ b1.body.bytes.length
        ∧ (memmove b1.body index add size).isSome = true)
    ∧ (∃ w1 p, sec_realloc w buff.body buff.capacity new_size = some (w1, p)
        ∧ buff.capacity ≤ p.bytes.length
        ∧ ∃ b2, buff_resize w buff new_size = .ret (w1, b2)) := by
  obtain ⟨g, hg⟩ := Option.isSome_iff_exists.mp hw
  obtain ⟨w1, b1, h, -, h1, -, -, h4⟩ :=
    growth_step_ok w buff (buff.size + size) hb hfit (fun _ => hw)
  obtain ⟨w2, b2, h', -, h1', -, -, h4'⟩ :=
    growth_step_ok w buff (buff.size + 1) hb hfit1 (fun _ => hw)
  obtain ⟨w3, b3, h'', -, -, -, -, h4''⟩ :=
    growth_step_ok w buff (index + size) hb hfiti (fun _ => hw)
  obtain ⟨wa, ba, ha, -⟩ := buff_append_ok w buff add size hsz hb hlen hfit (fun _ => hw)
  obtain ⟨wb, bb, hbb, -⟩ := buff_append_ok w buff [x] 1 hsz hb (by simp) hfit1 (fun _ => hw)
  refine ⟨⟨w1, b1, h, by omega, ?_, wa, ba, ha⟩, ⟨w2, b2, h', by omega, ?_, wb, bb, ?_⟩,
    ⟨w3, b3, h'', h4'', ?_⟩, ?_⟩
  · rw [memmove_in_bounds b1.body b1.size add size (by omega) hlen]
    rfl
  · rw [memmove_in_bounds b2.body b2.size [x] 1 (by omega) (by simp)]
    rfl
  · rw [buff_append_byte_unfold]
    exact hbb
  · rw [memmove_in_bounds b3.body index add size h4'' hlen]
    rfl
  · refine ⟨w.next, _, sec_realloc_grow w buff.body buff.capacity new_size g hb hn hg, ?_,
      _, buff_resize_grow w buff new_size g hb hn hg⟩
    simp [bytes_block, length_fresh, hb]

theorem writes_stay_in_bounds_witness :
    (∃ w1 b1, growth_step World.plenty ⟨1, 2, .block [7, 0]⟩ (1 + 2) = .ret (w1, b1)
        ∧ b1.size + 2 ≤ b1.body.bytes.length
        ∧ (memmove b1.body b1.size [8, 9] 2).isSome = true
        ∧ ∃ w2 b2, buff_append World.plenty ⟨1, 2, .block [7, 0]⟩ [8, 9] 2 = .ret (w2, b2))
    ∧ (∃ w1 b1, growth_step World.plenty ⟨1, 2, .block [7, 0]⟩ (1 + 1) = .ret (w1, b1)
        ∧ b1.size + 1 ≤ b1.body.bytes.length
        ∧ (memmove b1.body b1.size [5] 1).isSome = true
        ∧ ∃ w2 b2, buff_append_byte World.plenty ⟨1, 2, .block [7, 0]⟩ 5 = .ret (w2, b2))
    ∧ (∃ w1 b1, growth_step World.plenty ⟨1, 2, .block [7, 0]⟩ (6 + 2) = .ret (w1, b1)
        ∧ 6 + 2 ≤ b1.body.bytes.length
        ∧ (memmove b1.body 6 [8, 9] 2).isSome = true)
    ∧ (∃ w1 p, sec_realloc World.plenty (.block [7, 0]) 2 4 = some (w1, p)
        ∧ 2 ≤ p.bytes.length
        ∧ ∃ b2, buff_resize World.plenty ⟨1, 2, .block [7, 0]⟩ 4 = .ret (w1, b2)) :=
  writes_stay_in_bounds World.plenty ⟨1, 2, .block [7, 0]⟩ [8, 9] 2 6 5 4
    (by decide) (by decide) (by decide) (by decide) (by decide) (by decide) (by decide)
    (by decide)

/-! ## The byte stream of a dump -/

theorem length_bits_text (chunk : byte) (n : Nat) : (bits_text chunk n).length = n := by
  induction n with
  | zero => rfl
  | succ b ih => simp [bits_text, ih]

theorem bits_text_binary (chunk : byte) (n : Nat) :
    ∀ c ∈ bits_text chunk n, c = '0' ∨ c = '1' := by
  induction n with
  | zero => intro c hc; simp [bits_text] at hc
  | succ b ih =>
    intro c hc
    simp only [bits_text, List.mem_cons] at hc
    rcases hc with rfl | hc
    · split
      · exact Or.inr rfl
      · exact Or.inl rfl
    · exact ih c hc

theorem length_chunk_text (chunk : byte) : (chunk_text chunk).length = 9 := by
  simp [chunk_text, length_bits_text]

theorem length_dump_text (bytes : List byte) : (dump_text bytes).length = 9 * bytes.length := by
  induction bytes with
  | nil => rfl
  | cons x xs ih =>
    rw [dump_text_cons, List.length_append, length_chunk_text, ih, List.length_cons]
    omega

theorem dump_text_eq_flatten (bytes : List byte) :
    dump_text bytes = (bytes.map chunk_text).flatten := rfl

/-- C21, as it is stated, fails for one non-positive `num_bytes`: in
big-endian mode with `num_bytes` the least `int`, the loop starts with
`int i = numbytes - 1`, which overflows, so the call has no defined result
and in particular does not write just a newline and a NUL byte. -/
theorem buff_dump_least_int_undefined :
    (-2147483648 : Int) ≤ 0
    ∧ buff_dump World.plenty ⟨0, 0, .NULL⟩ (-2147483648) BIG_ENDIAN = .undefined
    ∧ ¬ ∃ w1 b1, buff_dump World.plenty ⟨0, 0, .NULL⟩ (-2147483648) BIG_ENDIAN = .ret (w1, b1)
        ∧ w1.stdout = ['\n', '\x00'] := by
  have h : buff_dump World.plenty ⟨0, 0, .NULL⟩ (-2147483648) BIG_ENDIAN = .undefined := rfl
  refine ⟨by decide, h, ?_⟩
  rintro ⟨w1, b1, h1, -⟩
  rw [h] at h1
  cases h1

/-- C21, amended: on a buffer whose body has `capacity` bytes, for
`numbytes ≤ capacity` (in big-endian mode other than the least `int`) and
either mode, every allocation of `print` being satisfied, `buff_dump`
returns and what it has written on the standard output is one group for
each of the `numbytes` selected bytes (eight characters `'0'` or `'1'` and a
space), then a newline, then a NUL byte: `9 * numbytes + 2` bytes when
`0 ≤ numbytes`, the newline and the NUL alone when `numbytes ≤ 0`. -/
theorem buff_dump_stream (w : World) (buff : Buffer) (numbytes endianess : Int)
    (hb : buff.body.bytes.length = buff.capacity)
    (hnum : numbytes ≤ (buff.capacity : Int))
    (hmin : endianess = LITTLE_ENDIAN ∨ -(2 ^ 31) < numbytes)
    (hw : w.malloc_always_ok) :
    ∃ w1 groups, buff_dump w buff numbytes endianess = .ret (w1, buff)
      ∧ w1.stdout = w.stdout ++ (groups.flatten ++ ['\n', '\x00'])
      ∧ groups = (if endianess = LITTLE_ENDIAN then buff.body.bytes.take numbytes.toNat
                  else (buff.body.bytes.take numbytes.toNat).reverse).map chunk_text
      ∧ groups.length = numbytes.toNat
      ∧ (∀ g ∈ groups, ∃ bits, g = bits ++ [' '] ∧ bits.length = 8
            ∧ ∀ c ∈ bits, c = '0' ∨ c = '1')
      ∧ (0 ≤ numbytes →
            ((groups.flatten ++ ['\n', '\x00']).length : Int) = 9 * numbytes + 2)
      ∧ (numbytes ≤ 0 → groups.flatten ++ ['\n', '\x00'] = ['\n', '\x00']) := by
  obtain ⟨w1, h, -, ho, -⟩ :=
    buff_dump_ok w buff numbytes endianess (by rw [hb]; exact hnum) hmin hw
  have hn : numbytes.toNat ≤ buff.body.bytes.length := by omega
  have hsel : (if endianess = LITTLE_ENDIAN then buff.body.bytes.take numbytes.toNat
      else (buff.body.bytes.take numbytes.toNat).reverse).length = numbytes.toNat := by
    split
    · rw [List.length_take]
      omega
    · rw [List.length_reverse, List.length_take]
      omega
  refine ⟨w1, _, h, ?_, rfl, ?_, ?_, ?_, ?_⟩
  · rw [ho, dump_text_eq_flatten, List.append_assoc]
  · rw [List.length_map, hsel]
  · intro g hg
    obtain ⟨x, -, rfl⟩ := List.mem_map.mp hg
    exact ⟨bits_text x 8, rfl, length_bits_text x 8, bits_text_binary x 8⟩
  · intro h0
    rw [← dump_text_eq_flatten, List.length_append, length_dump_text, hsel]
    simp only [List.length_cons, List.length_nil]
    omega
  · intro h0
    have hz : numbytes.toNat = 0 := by omega
    rw [hz]
    simp

theorem buff_dump_stream_witness :
    ∃ w1 groups, buff_dump World.plenty ⟨1, 2, .block [0x0F, 0xFF]⟩ 2 BIG_ENDIAN
        = .ret (w1, ⟨1, 2, .block [0x0F, 0xFF]⟩)
      ∧ w1.stdout = [] ++ (groups.flatten ++ ['\n', '\x00'])
      ∧ groups = ["11111111 ".data, "00001111 ".data]
      ∧ groups.length = 2
      ∧ (∀ g ∈ groups, ∃ bits, g = bits ++ [' '] ∧ bits.length = 8
            ∧ ∀ c ∈ bits, c = '0' ∨ c = '1')
      ∧ (0 ≤ (2 : Int) →
            ((groups.flatten ++ ['\n', '\x00']).length : Int) = 9 * 2 + 2)
      ∧ ((2 : Int) ≤ 0 → groups.flatten ++ ['\n', '\x00'] = ['\n', '\x00']) :=
  buff_dump_stream World.plenty ⟨1, 2, .block [0x0F, 0xFF]⟩ 2 BIG_ENDIAN
    (by decide) (by decide) (by decide) (fun _ => rfl)

end Buff
